import Mathlib

/-!
# Verification of the auto-build-flow build orchestration core

Shallow embedding of the version-resolution, branch-resolution and build
orchestration logic of the `auto-build-flow` repository (the version-service
module `services/store-version.js` and the Discord `MessageCreate` handler of
`index.js`), together with proofs of the specification's testable properties.

Strings are modelled as `List Char`.  JavaScript `NaN` values are modelled as
`Option.none` where they can arise (the result of `Number`/`parseInt` on
non-numeric text).  Only the decimal-integer fragment of JavaScript's numeric
parsing is modelled, which covers every version/build-number string the
specification quantifies over.
-/

namespace AutoBuildFlow

/-- Character lists standing for JavaScript strings. -/
abbrev Str := List Char

/-- Split a string at every occurrence of the separator character, keeping
empty pieces, exactly like JavaScript `s.split(sep)` for a one-character
separator (`"".split(".") == [""]`). -/
def splitOnSep (sep : Char) : Str → List Str
  | [] => [[]]
  | c :: cs =>
    let r := splitOnSep sep cs
    if c = sep then [] :: r
    else
      match r with
      | [] => [[c]]
      | p :: ps => (c :: p) :: ps

/-- Value of an unsigned decimal digit string. -/
def digitsToNat (s : Str) : Nat :=
  s.foldl (fun a c => a * 10 + (c.toNat - '0'.toNat)) 0

/-- JavaScript `Number(s)` on the decimal-integer fragment: the empty string
converts to `0`, an optional minus sign followed by digits converts to the
written integer, anything else is `NaN` (modelled as `none`).  Other numeric
literal forms accepted by `Number` (hex, exponents, surrounding whitespace)
do not occur in version strings and are outside the modelled fragment. -/
def jsNumberQ (s : Str) : Option Int :=
  match s with
  | [] => some 0
  | c :: rest =>
    if c = '-' then
      if rest ≠ [] ∧ rest.all Char.isDigit then some (-(digitsToNat rest : Int)) else none
    else if (c :: rest).all Char.isDigit then some (digitsToNat (c :: rest) : Int)
    else none

/-- JavaScript `x || 0` applied to a possibly-`NaN` number: `NaN` (and `0`
itself) become `0`, every other value is kept. -/
def orZero : Option Int → Int
  | some v => v
  | none => 0

/-- The numeric components of a version string, as used by `compareSemver`:
`a.split(".").map(Number)` with the `(pa[i] || 0)` fallback applied. -/
def semverParts (s : Str) : List Int :=
  (splitOnSep '.' s).map (fun p => orZero (jsNumberQ p))

/-- Tail of the `compareSemver` loop once the first component list is
exhausted: each remaining entry of the second list is compared against `0`. -/
def cmpNilCase : List Int → Int
  | [] => 0
  | y :: ys => if y ≠ 0 then -y else cmpNilCase ys

/-- The comparison loop of `compareSemver`: walk both component lists in
parallel (missing entries read as `0`) and return the first non-zero
difference, else `0`. -/
def cmpParts : List Int → List Int → Int
  | [], ys => cmpNilCase ys
  | x :: xs, [] => if x ≠ 0 then x else cmpParts xs []
  | x :: xs, y :: ys => if x - y ≠ 0 then x - y else cmpParts xs ys

/-- `compareSemver(a, b)` from `services/store-version.js`: positive when
`a > b`, negative when `a < b`, `0` when componentwise equal. -/
def compareSemver (a b : Str) : Int :=
  cmpParts (semverParts a) (semverParts b)

/-- JavaScript `parseInt(s, 10)`: skip leading whitespace, accept an optional
sign, then read the maximal run of leading decimal digits; `NaN` (`none`)
when no digit is found. -/
def jsParseInt (s : Str) : Option Int :=
  match s.dropWhile Char.isWhitespace with
  | [] => none
  | c :: r =>
    if c = '-' then
      let d := r.takeWhile Char.isDigit
      if d = [] then none else some (-(digitsToNat d : Int))
    else if c = '+' then
      let d := r.takeWhile Char.isDigit
      if d = [] then none else some (digitsToNat d : Int)
    else
      let d := (c :: r).takeWhile Char.isDigit
      if d = [] then none else some (digitsToNat d : Int)

/-- JavaScript `String(n)` for an integer. -/
def intToStr (n : Int) : Str :=
  if n < 0 then '-' :: Nat.toDigits 10 n.natAbs else Nat.toDigits 10 n.toNat

/-- Join component strings with `'.'`, like JavaScript `parts.join(".")`. -/
def joinDots : List Str → Str
  | [] => []
  | [p] => p
  | p :: ps => p ++ '.' :: joinDots ps

/-- `incrementVersion(versionName, versionCode)` from
`services/store-version.js`: when the version name is truthy and has at least
three dot-separated parts, bump its last part via `parseInt(last, 10) + 1`
(JavaScript renders `NaN + 1` as the string `"NaN"`), otherwise fall back to
`"1.0.1"`; the new build number is `versionCode + 1` when the code is truthy
and positive, else `2`. -/
def incrementVersion (versionName : Option Str) (versionCode : Int) : Str × Int :=
  let newVersion :=
    match versionName with
    | some s =>
      if s = [] then ("1.0.1" : String).data
      else
        let parts := splitOnSep '.' s
        if 3 ≤ parts.length then
          let last := parts.getLastD []
          let newLast :=
            match jsParseInt last with
            | some v => intToStr (v + 1)
            | none => ("NaN" : String).data
          joinDots (parts.dropLast ++ [newLast])
        else ("1.0.1" : String).data
    | none => ("1.0.1" : String).data
  let newBuild : Int := if 0 < versionCode then versionCode + 1 else 2
  (newVersion, newBuild)

/-- `StoreVersionInfo`: the latest published record on one platform for one
app, as returned by `getAndroidVersion` / `getIOSVersion`.  `versionName` is
`none` for JavaScript `null`; `versionCode` is `none` when the JavaScript
value is `NaN` (possible on iOS when `parseInt` fails on the build string). -/
structure StoreVersionInfo where
  versionName : Option Str
  versionCode : Option Int
deriving DecidableEq, Repr

/-- One iteration of the `for (const r of results)` max-reduction in
`getLatestVersionForApps`: skip non-records, take the version code when
strictly greater than the best so far (a `NaN` code never compares greater),
and take the version name when truthy and either no best name exists yet or
`compareSemver` says it is strictly newer. -/
def stepBest (acc : Option Str × Int) (r : Option StoreVersionInfo) : Option Str × Int :=
  match r with
  | none => acc
  | some info =>
    let bc :=
      match info.versionCode with
      | some v => if acc.2 < v then v else acc.2
      | none => acc.2
    let bn :=
      match info.versionName with
      | some n =>
        if n = [] then acc.1
        else
          match acc.1 with
          | none => some n
          | some m => if 0 < compareSemver n m then some n else some m
      | none => acc.1
    (bn, bc)

/-- The whole max-reduction of `getLatestVersionForApps`, starting from
`bestVersionName = null`, `bestVersionCode = 0`. -/
def bestOf (rs : List (Option StoreVersionInfo)) : Option Str × Int :=
  rs.foldl stepBest (none, 0)

/-- JavaScript `!bestVersionName`: `null` and the empty string are falsy. -/
def jsFalsyName : Option Str → Bool
  | none => true
  | some s => s = []

/-- The pure core of `getLatestVersionForApps(appNames, flutterDir, platform)`
as a function of the settled per-app lookup results (`Promise.allSettled`
returns them indexed by app, one `Option StoreVersionInfo` each; a rejected
promise or a caught per-app exception contributes `none`): max-reduce, then
either return the bootstrap `{versionName: "1.0.1", buildNumber: 2}` when no
store data was found, or increment the best version. -/
def getLatestVersionForApps (rs : List (Option StoreVersionInfo)) : Str × Int :=
  let b := bestOf rs
  if jsFalsyName b.1 ∧ b.2 = 0 then (("1.0.1" : String).data, 2)
  else incrementVersion b.1 b.2

/-! ## Store clients (`getAndroidVersion` / `getIOSVersion`)

The two store lookups perform network I/O; each asynchronous step is modelled
by an environment field recording its outcome.  A `false`/`none` outcome
stands for a thrown error or rejected request at that step, which the
function's `try`/`catch` converts into a `null` (`none`) result. -/

/-- Extract the parenthetical version from a Google Play release display name
(`/\((.+)\)/` then `trim`): the text between the first `'('` and the last
`')'` after it, whitespace-trimmed; `none` when the pattern has no match.
Release names are single-line, which is the fragment modelled here. -/
def extractParenVersion (s : Str) : Option Str :=
  match s.dropWhile (· ≠ '(') with
  | [] => none
  | _ :: afterOpen =>
    let inner := (afterOpen.reverse.dropWhile (· ≠ ')')).drop 1 |>.reverse
    if afterOpen.contains ')' ∧ inner ≠ [] then
      some ((inner.dropWhile Char.isWhitespace).reverse.dropWhile Char.isWhitespace |>.reverse)
    else none

/-- One release entry of the Google Play internal track: its numeric version
codes and its optional display name. -/
structure PlayRelease where
  versionCodes : List Int
  name : Option Str
deriving DecidableEq, Repr

/-- Outcomes of the external steps taken by `getAndroidVersion`:
`saExists` — `existsSync(serviceAccountPath)`; `tokenOk` — the OAuth2 token
exchange returned an `access_token`; `editOk` — the edit-creation request
succeeded and returned an id; `releases` — the internal-track request
(`none` = request failed/threw, `some rs` = the track's release list). -/
structure AndroidEnv where
  saExists : Bool
  tokenOk : Bool
  editOk : Bool
  releases : Option (List PlayRelease)
deriving DecidableEq, Repr

/-- `Math.max(...codes)` with the `codes.length ? ... : 0` guard. -/
def highestCode (codes : List Int) : Int :=
  match codes with
  | [] => 0
  | c :: cs => cs.foldl max c

/-- `getAndroidVersion(packageName, serviceAccountPath)`: skip (return `null`)
when the credential file is absent; any thrown step inside the `try` is
caught and yields `null`; an empty release list yields `null`; otherwise read
the newest (first) release, taking the maximum version code and the
parenthesised display-name version. -/
def getAndroidVersion (env : AndroidEnv) : Option StoreVersionInfo :=
  if !env.saExists then none
  else if !env.tokenOk then none
  else if !env.editOk then none
  else
    match env.releases with
    | none => none
    | some [] => none
    | some (latest :: _) =>
      some ⟨latest.name.bind extractParenVersion, some (highestCode latest.versionCodes)⟩

/-- Outcomes of the external steps taken by `getIOSVersion`:
`configExists` — `existsSync` of `api_key_config.json`; `jwtOk` — the Apple
JWT could be generated (key file present, fields present); `apps` — the
bundle-id lookup (`none` = request threw, `some []` = no app found);
`builds` — the TestFlight build list (`none` = request threw, entries carry
the build-number string fed to `parseInt`); `preRelease` — the optional
included pre-release version string. -/
structure IOSEnv where
  configExists : Bool
  jwtOk : Bool
  apps : Option (List Unit)
  builds : Option (List Str)
  preRelease : Option Str
deriving DecidableEq, Repr

/-- `getIOSVersion(bundleId, apiKeyDir)`: skip when the config file is
absent; any thrown step is caught and yields `null`; no matching app or no
builds yields `null`; otherwise the build number is `parseInt` of the newest
build's version string and the version name is the included pre-release
version (if any). -/
def getIOSVersion (env : IOSEnv) : Option StoreVersionInfo :=
  if !env.configExists then none
  else if !env.jwtOk then none
  else
    match env.apps with
    | none => none
    | some [] => none
    | some (_ :: _) =>
      match env.builds with
      | none => none
      | some [] => none
      | some (b :: _) =>
        some ⟨env.preRelease, jsParseInt b⟩

/-! ## Branch resolution

The older `index.js` resolves a user-supplied branch token inline: an exact
checkout is attempted first; on failure, normalized variants of the token are
matched with `git branch -r | grep -i "<variant>"` and the deduplicated
candidate set decides the outcome.  `grep` sees the raw `git branch -r`
output, i.e. lines of the form `"  origin/<branch>"`; the `sed`/`xargs`
post-processing strips the decoration from the *reported* candidates only.
Variants are treated as literal substrings (faithful for tokens free of
`grep` regex metacharacters, which branch tokens are). -/

/-- `BranchMatchResult` from the specification's data model. -/
inductive BranchMatchResult where
  | exact (name : Str)
  | fuzzy (name : Str)
  | ambiguous (candidates : List Str)
  | notFound
deriving DecidableEq, Repr

/-- Worker for `replaceSpaceRuns`: `inRun` records whether the previous
character was whitespace (in which case the run's replacement has already
been emitted). -/
def replaceSpaceRunsGo (r : Str) (inRun : Bool) : Str → Str
  | [] => []
  | c :: cs =>
    if c.isWhitespace then
      (if inRun then [] else r) ++ replaceSpaceRunsGo r true cs
    else c :: replaceSpaceRunsGo r false cs

/-- JavaScript `s.replace(/\s+/g, r)` for a replacement that is a single
character or empty: every maximal run of whitespace becomes `r`. -/
def replaceSpaceRuns (r : Str) (s : Str) : Str :=
  replaceSpaceRunsGo r false s

/-- `leadsWith needle hay`: the needle appears at the very start of the
haystack. -/
def leadsWith : Str → Str → Bool
  | [], _ => true
  | _ :: _, [] => false
  | a :: as, b :: bs => a = b && leadsWith as bs

/-- `occursIn needle hay`: the needle appears somewhere inside the haystack
(JavaScript-style substring containment; the empty needle always occurs). -/
def occursIn (needle : Str) : Str → Bool
  | [] => needle.isEmpty
  | b :: bs => leadsWith needle (b :: bs) || occursIn needle bs

/-- `[...new Set(list)]`: deduplicate keeping first occurrences in order. -/
def dedupFirst : List Str → List Str :=
  go []
where
  /-- Walk the list, skipping entries already seen. -/
  go (seen : List Str) : List Str → List Str
    | [] => []
    | x :: xs => if x ∈ seen then go seen xs else x :: go (x :: seen) xs

/-- The normalized search patterns built from the user token: the original,
spaces→underscores, spaces→hyphens, spaces removed, deduplicated. -/
def searchPatterns (branch : Str) : List Str :=
  dedupFirst [branch, replaceSpaceRuns ['_'] branch,
    replaceSpaceRuns ['-'] branch, replaceSpaceRuns [] branch]

/-- Case-insensitive substring test (`grep -i`), via lowercasing both sides. -/
def containsCI (line p : Str) : Bool :=
  occursIn (p.map Char.toLower) (line.map Char.toLower)

/-- The decorated line `grep` sees for a remote branch: `"  origin/<name>"`. -/
def remoteLine (b : Str) : Str :=
  ("  origin/" : String).data ++ b

/-- The deduplicated fuzzy candidates: for each pattern, every remote branch
whose `git branch -r` line contains the pattern case-insensitively. -/
def fuzzyCandidates (branch : Str) (remoteBranches : List Str) : List Str :=
  dedupFirst ((searchPatterns branch).flatMap
    (fun p => remoteBranches.filter (fun b => containsCI (remoteLine b) p)))

/-- Branch resolution as implemented by the older `index.js` handler: an
exact match (successful `git checkout`, abstracted as membership in the
remote branch list) wins; otherwise one fuzzy candidate is used, several
abort as ambiguous, none aborts as not found. -/
def resolveBranch (branch : Str) (remoteBranches : List Str) : BranchMatchResult :=
  if branch ∈ remoteBranches then .exact branch
  else
    match fuzzyCandidates branch remoteBranches with
    | [] => .notFound
    | [c] => .fuzzy c
    | cs => .ambiguous cs

/-- The candidate set as described by the specification's words (§4.4):
variants matched as case-insensitive substrings *of the remote branch names
themselves*, without the `git branch -r` line decoration. -/
def specFuzzyCandidates (branch : Str) (remoteBranches : List Str) : List Str :=
  dedupFirst ((searchPatterns branch).flatMap
    (fun p => remoteBranches.filter (fun b => containsCI b p)))

/-- `resolveBranch` as described by the specification's words (§4.4). -/
def specResolveBranch (branch : Str) (remoteBranches : List Str) : BranchMatchResult :=
  if branch ∈ remoteBranches then .exact branch
  else
    match specFuzzyCandidates branch remoteBranches with
    | [] => .notFound
    | [c] => .fuzzy c
    | cs => .ambiguous cs

/-! ## Script templating (`parseAppNamesFromScript` / `replaceVersionInScript`)

JavaScript `s.replace(/MARKER=\S+/, tpl)` replaces the first occurrence of
the marker followed by a maximal non-empty run of non-whitespace, after
applying the `$`-escape rules to the replacement template. -/

/-- Non-whitespace test (`\S`). -/
def nonSpace (c : Char) : Bool := !c.isWhitespace

/-- Does `MARKER=\S+` match at the very start of `s` (marker present and
followed by at least one non-whitespace character)? -/
def startsMatch (m s : Str) : Bool :=
  leadsWith m s &&
    match s.drop m.length with
    | [] => false
    | c :: _ => nonSpace c

/-- First match of `MARKER=\S+` in `s`, decomposed as
`(before, value, after)` with `s = before ++ m ++ value ++ after`, `value`
the maximal non-empty non-whitespace run after the marker. -/
def findMatch (m : Str) : Str → Option (Str × Str × Str)
  | [] => none
  | c :: cs =>
    if startsMatch m (c :: cs) then
      let rest := (c :: cs).drop m.length
      some ([], rest.takeWhile nonSpace, rest.dropWhile nonSpace)
    else
      match findMatch m cs with
      | none => none
      | some (p, v, suf) => some (c :: p, v, suf)

/-- JavaScript replacement-string `$` substitution: `$$` → `$`, `$&` → the
matched text, `` $` `` → the text before the match, `$'` → the text after the
match; any other `$`-sequence is literal (the regexes here have no capture
groups, so `$1` etc. stay literal). -/
def dollarSub (matched pre suf : Str) : Str → Str
  | [] => []
  | c :: rest =>
    if c = '$' then
      match rest with
      | [] => ['$']
      | d :: r =>
        if d = '$' then '$' :: dollarSub matched pre suf r
        else if d = '&' then matched ++ dollarSub matched pre suf r
        else if d = Char.ofNat 96 then pre ++ dollarSub matched pre suf r
        else if d = Char.ofNat 39 then suf ++ dollarSub matched pre suf r
        else '$' :: d :: dollarSub matched pre suf r
    else c :: dollarSub matched pre suf rest

/-- `s.replace(/m\S+/, tpl)`: replace the first `MARKER=\S+` match with the
`$`-substituted template, or return `s` unchanged when there is no match. -/
def replaceFirst (m tpl s : Str) : Str :=
  match findMatch m s with
  | none => s
  | some (p, v, suf) => p ++ dollarSub (m ++ v) p suf tpl ++ suf

/-- `replaceVersionInScript(script, versionName, buildNumber)` from
`services/store-version.js`: replace the first `VERSION=` assignment, then
the first `BUILD_NUMBER=` assignment of the result. -/
def replaceVersionInScript (script versionName : Str) (buildNumber : Int) : Str :=
  replaceFirst ("BUILD_NUMBER=" : String).data
    (("BUILD_NUMBER=" : String).data ++ intToStr buildNumber)
    (replaceFirst ("VERSION=" : String).data
      (("VERSION=" : String).data ++ versionName) script)

/-- Worker for `parseAppNamesFromScript`; the fuel bounds the number of
characters consumed, so `s.length` is always enough. -/
def parseAppsGo : Nat → Str → List Str
  | 0, _ => []
  | fuel + 1, s =>
    match s with
    | [] => []
    | c :: cs =>
      if c = '"' then
        let body := cs.takeWhile (· ≠ '"')
        let rest := cs.dropWhile (· ≠ '"')
        match rest with
        | [] => []
        | _ :: rest' =>
          if body = [] then parseAppsGo fuel rest else body :: parseAppsGo fuel rest'
      else parseAppsGo fuel cs

/-- `parseAppNamesFromScript(script)`: all double-quoted tokens
(`/"([^"]+)"/g`), in order.  The regex engine scans left to right, taking at
each position the earliest match: an opening quote, one or more non-quote
characters, a closing quote. -/
def parseAppNamesFromScript (s : Str) : List Str :=
  parseAppsGo s.length s

/-! ## Build orchestrator (the `Events.MessageCreate` build path)

The handler body from the `useLatestVersion` block to the `finally` clause
(`index.js`), modelled as a pure function of the current process state, the
classified build request, and an environment recording the outcome of every
external await (each Discord send may throw; the file write may fail; the
checkout may fail).  The handler's `try`/`catch`/`finally` structure is
mirrored exactly: the inner version-block `catch` reports and returns, the
busy-notification send is individually guarded, the outer `catch` falls
through to the `finally`, and the `finally` always clears `isBuilding`. -/

/-- The Discord sends of the build path, in source order. -/
inductive SendPoint where
  | warnNoApps | fetching | verError | verConfirm | busy | response
  | switching | branchFail | branchDone | starting | fallback
deriving DecidableEq, Repr

/-- Externally visible primitive steps of one handler run.  `send` records
an attempted channel send, `writeScript` a completed overwrite of the target
`apps.sh`, `setLock` an assignment to the module-global `isBuilding`,
`checkout` an attempted branch checkout, `execBuild` the spawn of the build
command, `caught` entry into the outer `catch`. -/
inductive Action where
  | send (p : SendPoint)
  | writeScript (content : Str)
  | setLock (b : Bool)
  | checkout (branch : Str)
  | execBuild (cmd : Str)
  | caught
deriving DecidableEq, Repr

/-- The process-wide mutable state the handler touches: the `isBuilding`
flag and the contents of the target build-script file. -/
structure SysState where
  isBuilding : Bool
  appsScript : Str
deriving DecidableEq, Repr

/-- A structured build request (the classifier output consumed by the build
path).  `branch` is the raw string field; the empty string means "no
checkout" (JavaScript truthiness). -/
structure BuildRequest where
  script : Str
  command : Str
  branch : Str
  useLatestVersion : Bool
deriving DecidableEq, Repr

/-- Outcomes of the external awaits of one run: which sends succeed, whether
the store-version fan-out itself rejected, the settled per-app lookup
results, whether the file write succeeds, and whether the checkout
succeeds. -/
structure RunEnv where
  sendOk : SendPoint → Bool
  versionThrew : Bool
  lookups : List (Option StoreVersionInfo)
  writeOk : Bool
  checkoutSuccess : Bool

/-- Result of the `useLatestVersion` block: continue with a (possibly
rewritten) script, return early, or throw to the outer catch. -/
inductive VerOutcome where
  | proceed (script : Str)
  | earlyReturn
  | threw
deriving DecidableEq, Repr

/-- The error path of the version block's `catch`: report the failure (a
failing report send propagates to the outer catch). -/
def verErrorPath (env : RunEnv) (acts : List Action) : VerOutcome × List Action :=
  if env.sendOk .verError then (.earlyReturn, acts ++ [.send .verError])
  else (.threw, acts ++ [.send .verError])

/-- The `useLatestVersion` block: detect app names, fetch and increment the
store version, rewrite the script's version markers.  Platform selection
(`command.includes("build.sh i")`) only decides which store the settled
`env.lookups` came from and has no further effect on the modelled state. -/
def runVersionBlock (req : BuildRequest) (env : RunEnv) : VerOutcome × List Action :=
  if ¬ req.useLatestVersion then (.proceed req.script, [])
  else
    let appNames := parseAppNamesFromScript req.script
    if appNames = [] then
      if env.sendOk .warnNoApps then (.earlyReturn, [.send .warnNoApps])
      else verErrorPath env [.send .warnNoApps]
    else
      if ¬ env.sendOk .fetching then verErrorPath env [.send .fetching]
      else if env.versionThrew then verErrorPath env [.send .fetching]
      else
        let v := getLatestVersionForApps env.lookups
        let sc := replaceVersionInScript req.script v.1 v.2
        if env.sendOk .verConfirm then (.proceed sc, [.send .fetching, .send .verConfirm])
        else verErrorPath env [.send .fetching, .send .verConfirm]

/-- The build path after the version block: busy check, confirmation send,
script overwrite, lock acquisition, optional checkout, build execution.  The
returned `Bool` is `true` when an uncaught error escapes to the outer
catch. -/
def afterVersion (s : SysState) (script : Str) (req : BuildRequest) (env : RunEnv) :
    SysState × List Action × Bool :=
  if s.isBuilding then
    (s, [.send .busy], false)
  else if ¬ env.sendOk .response then (s, [.send .response], true)
  else if ¬ env.writeOk then (s, [.send .response], true)
  else
    let s1 : SysState := { s with appsScript := script }
    let s2 : SysState := { s1 with isBuilding := true }
    let base : List Action := [.send .response, .writeScript script, .setLock true]
    if req.branch = [] then
      if ¬ env.sendOk .starting then (s2, base ++ [.send .starting], true)
      else (s2, base ++ [.send .starting, .execBuild req.command], false)
    else
      if ¬ env.sendOk .switching then (s2, base ++ [.send .switching], true)
      else
        let base2 := base ++ [.send .switching, .checkout req.branch]
        if ¬ env.checkoutSuccess then
          if ¬ env.sendOk .branchFail then (s2, base2 ++ [.send .branchFail], true)
          else ({ s2 with isBuilding := false },
            base2 ++ [.send .branchFail, .setLock false], false)
        else
          if ¬ env.sendOk .branchDone then (s2, base2 ++ [.send .branchDone], true)
          else if ¬ env.sendOk .starting then
            (s2, base2 ++ [.send .branchDone, .send .starting], true)
          else
            (s2, base2 ++ [.send .branchDone, .send .starting, .execBuild req.command], false)

/-- The whole `try` body of the build path. -/
def runTry (s : SysState) (req : BuildRequest) (env : RunEnv) :
    SysState × List Action × Bool :=
  let vb := runVersionBlock req env
  match vb.1 with
  | .proceed sc =>
    let r := afterVersion s sc req env
    (r.1, vb.2 ++ r.2.1, r.2.2)
  | .earlyReturn => (s, vb.2, false)
  | .threw => (s, vb.2, true)

/-- One complete handler run: `try` body, outer `catch` (log + guarded
fallback send), and the `finally` clause, which unconditionally assigns
`isBuilding = false`. -/
def runHandler (s : SysState) (req : BuildRequest) (env : RunEnv) :
    SysState × List Action :=
  let r := runTry s req env
  let acts := if r.2.2 then r.2.1 ++ [.caught, .send .fallback] else r.2.1
  ({ r.1 with isBuilding := false }, acts ++ [.setLock false])

/-- One step of the version-code maximum over the found records (`NaN`
codes never contribute, mirroring `info.versionCode > best`). -/
def codeStep (a : Int) (r : Option StoreVersionInfo) : Int :=
  match r with
  | none => a
  | some i =>
    match i.versionCode with
    | some v => max a v
    | none => a

/-- The maximum version code over the found records, starting from `0`. -/
def maxCode (rs : List (Option StoreVersionInfo)) : Int :=
  rs.foldl codeStep 0

/-- All per-app version strings with ≤ 4 non-negative integer components,
the domain the specification's `compareSemver` property quantifies over. -/
def isVersionStr (s : Str) : Bool :=
  let ps := splitOnSep '.' s
  ps.length ≤ 4 && ps.all (fun p => !p.isEmpty && p.all Char.isDigit)

/-- An environment in which every external await of a handler run
succeeds. -/
def envAllOk : RunEnv :=
  { sendOk := fun _ => true, versionThrew := false, lookups := [],
    writeOk := true, checkoutSuccess := true }

/-- The truthy version name carried by one settled lookup result, if any. -/
def truthyName (r : Option StoreVersionInfo) : Option Str :=
  match r with
  | some info =>
    match info.versionName with
    | some n => if n = [] then none else some n
    | none => none
  | none => none

/-- The truthy version names among the found records, in result order (the
candidates considered by the name half of the max-reduction). -/
def truthyNames (rs : List (Option StoreVersionInfo)) : List Str :=
  rs.filterMap truthyName

/-- The name half of one max-reduction step, as a function of the best name
alone (the two halves of `stepBest` are independent). -/
def nameStep (acc : Option Str) (r : Option StoreVersionInfo) : Option Str :=
  match r with
  | none => acc
  | some info =>
    match info.versionName with
    | some n =>
      if n = [] then acc
      else
        match acc with
        | none => some n
        | some m => if 0 < compareSemver n m then some n else some m
    | none => acc

/-- Pointwise equality of integer sequences (padded version components). -/
def seqEq (f g : Nat → Int) : Prop := ∀ i, f i = g i

/-- Strict lexicographic order on integer sequences: at the first differing
index the left value is smaller. -/
def seqLt (f g : Nat → Int) : Prop :=
  ∃ i : Nat, (∀ j, j < i → f j = g j) ∧ f i < g i

/-! ## Helper lemmas -/

/-- The split of a string is never the empty list. -/
theorem splitOnSep_ne_nil (sep : Char) (s : Str) : splitOnSep sep s ≠ [] := by
  cases s with
  | nil => simp [splitOnSep]
  | cons c cs =>
    simp only [splitOnSep]
    split
    · simp
    · split <;> simp

/-- Joining at least two components always yields a non-empty string. -/
theorem joinDots_ne_nil (l : List Str) (h : 2 ≤ l.length) : joinDots l ≠ [] := by
  match l with
  | [] => simp at h
  | [p] => simp at h
  | p :: q :: rest =>
    simp only [joinDots]
    intro hc
    cases p <;> simp_all

/-- Skipping a `none` (failed/absent) lookup result leaves the
max-reduction unchanged. -/
theorem bestOf_skip_none (l1 l2 : List (Option StoreVersionInfo)) :
    bestOf (l1 ++ none :: l2) = bestOf (l1 ++ l2) := by
  simp [bestOf, List.foldl_append, List.foldl_cons, stepBest]

/-- The version block's trace consists of channel sends only: it never
writes the script file, never toggles the lock, never spawns a process. -/
theorem verBlock_sends (req : BuildRequest) (env : RunEnv) (a : Action)
    (h : a ∈ (runVersionBlock req env).2) : ∃ p, a = Action.send p := by
  unfold runVersionBlock verErrorPath at h
  simp only [apply_ite Prod.snd] at h
  repeat' split at h
  all_goals simp_all
  all_goals aesop

/-- If the post-version path spawns the build, the lock was free at entry and
the trace records the lock acquisition. -/
theorem afterVersion_exec (s : SysState) (script : Str) (req : BuildRequest)
    (env : RunEnv) (c : Str)
    (h : Action.execBuild c ∈ (afterVersion s script req env).2.1) :
    s.isBuilding = false ∧ Action.setLock true ∈ (afterVersion s script req env).2.1 := by
  unfold afterVersion at h ⊢
  repeat' split at h <;> simp_all

/-- Lifting of `afterVersion_exec` to the whole `try` body. -/
theorem runTry_exec (s : SysState) (req : BuildRequest) (env : RunEnv) (c : Str)
    (h : Action.execBuild c ∈ (runTry s req env).2.1) :
    s.isBuilding = false ∧ Action.setLock true ∈ (runTry s req env).2.1 := by
  simp only [runTry] at h ⊢
  revert h
  cases hvo : (runVersionBlock req env).1 with
  | proceed sc =>
    intro h
    simp only [List.mem_append] at h
    rcases h with h | h
    · obtain ⟨p, hp⟩ := verBlock_sends req env _ h
      cases hp
    · obtain ⟨hfree, hlock⟩ := afterVersion_exec s sc req env c h
      exact ⟨hfree, by simp only [List.mem_append]; exact Or.inr hlock⟩
  | earlyReturn =>
    intro h
    obtain ⟨p, hp⟩ := verBlock_sends req env _ h
    cases hp
  | threw =>
    intro h
    obtain ⟨p, hp⟩ := verBlock_sends req env _ h
    cases hp

/-- The handler's trace is the `try` trace followed by catch/finally
bookkeeping, which never contains a build spawn. -/
theorem runHandler_trace (s : SysState) (req : BuildRequest) (env : RunEnv) :
    ∃ extra, (runHandler s req env).2 = (runTry s req env).2.1 ++ extra
      ∧ ∀ a ∈ extra, Action.execBuild req.command ≠ a := by
  simp only [runHandler]
  split
  · refine ⟨[Action.caught, Action.send SendPoint.fallback, Action.setLock false], by simp, ?_⟩
    intro a ha
    simp only [List.mem_cons, List.not_mem_nil, or_false] at ha
    rcases ha with rfl | rfl | rfl <;> simp
  · refine ⟨[Action.setLock false], by simp, ?_⟩
    intro a ha
    simp only [List.mem_cons, List.not_mem_nil, or_false] at ha
    rcases ha with rfl
    simp

/-- Decimal digits are not whitespace. -/
theorem not_whitespace_of_digit (c : Char) (h : c.isDigit = true) :
    c.isWhitespace = false := by
  cases hw : c.isWhitespace
  · rfl
  · exfalso
    simp only [Char.isWhitespace, Bool.or_eq_true, decide_eq_true_eq] at hw
    rcases hw with ((rfl | rfl) | rfl) | rfl <;> exact absurd h (by decide)

/-- A decimal digit is not the minus sign. -/
theorem digit_ne_dash (c : Char) (h : c.isDigit = true) : c ≠ '-' := by
  intro hc; subst hc; exact absurd h (by decide)

/-- A decimal digit is not the plus sign. -/
theorem digit_ne_plus (c : Char) (h : c.isDigit = true) : c ≠ '+' := by
  intro hc; subst hc; exact absurd h (by decide)

/-- `takeWhile` keeps a list all of whose elements satisfy the test. -/
theorem takeWhile_all {p : Char → Bool} {l : Str} (h : l.all p = true) :
    l.takeWhile p = l := by
  induction l with
  | nil => rfl
  | cons c cs ih =>
    simp only [List.all_cons, Bool.and_eq_true] at h
    simp [List.takeWhile, h.1, ih h.2]

/-- `parseInt` on a non-empty all-digit string reads the written value. -/
theorem jsParseInt_digits (s : Str) (h1 : s ≠ []) (h2 : s.all Char.isDigit = true) :
    jsParseInt s = some (digitsToNat s : Int) := by
  unfold jsParseInt
  cases s with
  | nil => exact absurd rfl h1
  | cons c cs =>
    simp only [List.all_cons, Bool.and_eq_true] at h2
    have hw : c.isWhitespace = false := not_whitespace_of_digit c h2.1
    have hdw : (c :: cs).dropWhile Char.isWhitespace = c :: cs := by
      simp [List.dropWhile, hw]
    rw [hdw]
    dsimp only
    have htw : (c :: cs).takeWhile Char.isDigit = c :: cs := by
      apply takeWhile_all
      simp [h2.1, h2.2]
    rw [if_neg (digit_ne_dash c h2.1), if_neg (digit_ne_plus c h2.1)]
    simp only [htw]
    simp

/-- Comparing against no components compares against the empty suffix. -/
theorem cmpParts_nil_left (ys : List Int) : cmpParts [] ys = cmpNilCase ys := rfl

/-- Comparing components against nothing negates the nil-case comparison. -/
theorem cmpParts_nil_right (xs : List Int) : cmpParts xs [] = - cmpNilCase xs := by
  induction xs with
  | nil => rfl
  | cons x xs ih =>
    simp only [cmpParts, cmpNilCase]
    split
    · omega
    · exact ih

/-- The comparison loop is antisymmetric on all component lists. -/
theorem cmpParts_antisymm : ∀ (xs ys : List Int), cmpParts xs ys = - cmpParts ys xs := by
  intro xs
  induction xs with
  | nil =>
    intro ys
    rw [cmpParts_nil_left, cmpParts_nil_right]
    ring
  | cons x xs ih =>
    intro ys
    cases ys with
    | nil =>
      rw [cmpParts_nil_right, cmpParts_nil_left]
    | cons y ys =>
      simp only [cmpParts]
      by_cases h : x - y ≠ 0
      · rw [if_pos h, if_pos (by omega)]
        ring
      · rw [if_neg h, if_neg (by omega)]
        rw [ih ys]

/-- The nil-case loop returns zero exactly when every remaining component
is zero. -/
theorem cmpNilCase_eq_zero_iff (ys : List Int) :
    cmpNilCase ys = 0 ↔ ∀ i, ys.getD i 0 = 0 := by
  induction ys with
  | nil => simp [cmpNilCase]
  | cons y ys ih =>
    simp only [cmpNilCase]
    constructor
    · intro h i
      split at h
      · omega
      · rename_i hy
        cases i with
        | zero => simpa using (by omega : y = 0)
        | succ j => simpa using ih.mp h j
    · intro h
      have hy : y = 0 := by simpa using h 0
      rw [if_neg (by omega)]
      exact ih.mpr (fun i => by simpa using h (i + 1))

/-- The nil-case loop is positive exactly when the first non-zero remaining
component is negative. -/
theorem cmpNilCase_pos_iff (ys : List Int) : 0 < cmpNilCase ys ↔
    ∃ i : Nat, (∀ j, j < i → ys.getD j 0 = 0) ∧ ys.getD i 0 < 0 := by
  induction ys with
  | nil => simp [cmpNilCase]
  | cons y ys ih =>
    simp only [cmpNilCase]
    split
    · rename_i hy
      constructor
      · intro h
        exact ⟨0, by omega, by simpa using (by omega : y < 0)⟩
      · rintro ⟨i, hj, hi⟩
        cases i with
        | zero => simp at hi; omega
        | succ k =>
          have h0 := hj 0 (Nat.succ_pos k)
          simp at h0
          omega
    · rename_i hy
      rw [ih]
      constructor
      · rintro ⟨i, hj, hi⟩
        refine ⟨i + 1, ?_, by simpa using hi⟩
        intro j hjlt
        cases j with
        | zero => simpa using (by omega : y = 0)
        | succ k => simpa using hj k (by omega)
      · rintro ⟨i, hj, hi⟩
        cases i with
        | zero => simp at hi; omega
        | succ k =>
          refine ⟨k, ?_, by simpa using hi⟩
          intro j hjlt
          simpa using hj (j + 1) (by omega)

/-- The nil-case loop is negative exactly when the first non-zero remaining
component is positive. -/
theorem cmpNilCase_neg_iff (ys : List Int) : cmpNilCase ys < 0 ↔
    ∃ i : Nat, (∀ j, j < i → ys.getD j 0 = 0) ∧ 0 < ys.getD i 0 := by
  induction ys with
  | nil => simp [cmpNilCase]
  | cons y ys ih =>
    simp only [cmpNilCase]
    split
    · rename_i hy
      constructor
      · intro h
        exact ⟨0, by omega, by simpa using (by omega : 0 < y)⟩
      · rintro ⟨i, hj, hi⟩
        cases i with
        | zero => simp at hi; omega
        | succ k =>
          have h0 := hj 0 (Nat.succ_pos k)
          simp at h0
          omega
    · rename_i hy
      rw [ih]
      constructor
      · rintro ⟨i, hj, hi⟩
        refine ⟨i + 1, ?_, by simpa using hi⟩
        intro j hjlt
        cases j with
        | zero => simpa using (by omega : y = 0)
        | succ k => simpa using hj k (by omega)
      · rintro ⟨i, hj, hi⟩
        cases i with
        | zero => simp at hi; omega
        | succ k =>
          refine ⟨k, ?_, by simpa using hi⟩
          intro j hjlt
          simpa using hj (j + 1) (by omega)

/-- The comparison loop returns zero exactly when the component lists agree
at every index, absent entries read as zero. -/
theorem cmpParts_eq_zero_iff : ∀ (xs ys : List Int),
    cmpParts xs ys = 0 ↔ ∀ i, xs.getD i 0 = ys.getD i 0 := by
  intro xs
  induction xs with
  | nil =>
    intro ys
    rw [cmpParts_nil_left, cmpNilCase_eq_zero_iff]
    constructor
    · intro h i
      simpa using (h i).symm
    · intro h i
      simpa using (h i).symm
  | cons x xs ih =>
    intro ys
    cases ys with
    | nil =>
      rw [cmpParts_nil_right, neg_eq_zero, cmpNilCase_eq_zero_iff]
      constructor
      · intro h i
        simpa using h i
      · intro h i
        simpa using h i
    | cons y ys =>
      simp only [cmpParts]
      split
      · rename_i h
        constructor
        · intro h0; omega
        · intro hall
          have := hall 0
          simp at this
          omega
      · rename_i h
        rw [ih ys]
        constructor
        · intro hall i
          cases i with
          | zero => simpa using (by omega : x = y)
          | succ k => simpa using hall k
        · intro hall i
          simpa using hall (i + 1)

/-- The comparison loop is positive exactly when at the first differing
index the left component is greater, absent entries read as zero. -/
theorem cmpParts_pos_iff : ∀ (xs ys : List Int), 0 < cmpParts xs ys ↔
    ∃ i : Nat, (∀ j, j < i → xs.getD j 0 = ys.getD j 0)
      ∧ ys.getD i 0 < xs.getD i 0 := by
  intro xs
  induction xs with
  | nil =>
    intro ys
    rw [cmpParts_nil_left, cmpNilCase_pos_iff]
    constructor
    · rintro ⟨i, hj, hi⟩
      exact ⟨i, fun j hjlt => by simpa using (hj j hjlt).symm, by simpa using hi⟩
    · rintro ⟨i, hj, hi⟩
      exact ⟨i, fun j hjlt => by simpa using (hj j hjlt).symm, by simpa using hi⟩
  | cons x xs ih =>
    intro ys
    cases ys with
    | nil =>
      rw [cmpParts_nil_right]
      rw [show (0 < -cmpNilCase (x :: xs)) ↔ (cmpNilCase (x :: xs) < 0) by omega]
      rw [cmpNilCase_neg_iff]
      constructor
      · rintro ⟨i, hj, hi⟩
        exact ⟨i, fun j hjlt => by simpa using hj j hjlt, by simpa using hi⟩
      · rintro ⟨i, hj, hi⟩
        exact ⟨i, fun j hjlt => by simpa using hj j hjlt, by simpa using hi⟩
    | cons y ys =>
      simp only [cmpParts]
      split
      · rename_i h
        constructor
        · intro h0
          exact ⟨0, by omega, by simp; omega⟩
        · rintro ⟨i, hj, hi⟩
          cases i with
          | zero => simp at hi; omega
          | succ k =>
            have h0 := hj 0 (Nat.succ_pos k)
            simp at h0
            omega
      · rename_i h
        rw [ih ys]
        constructor
        · rintro ⟨i, hj, hi⟩
          refine ⟨i + 1, ?_, by simpa using hi⟩
          intro j hjlt
          cases j with
          | zero => simpa using (by omega : x = y)
          | succ k => simpa using hj k (by omega)
        · rintro ⟨i, hj, hi⟩
          cases i with
          | zero => simp at hi; omega
          | succ k =>
            refine ⟨k, ?_, by simpa using hi⟩
            intro j hjlt
            simpa using hj (j + 1) (by omega)

/-- `Number` on a non-empty all-digit string reads the written value. -/
theorem jsNumberQ_digits (p : Str) (h1 : p ≠ []) (h2 : p.all Char.isDigit = true) :
    jsNumberQ p = some (digitsToNat p : Int) := by
  cases p with
  | nil => exact absurd rfl h1
  | cons c cs =>
    have hall := h2
    simp only [List.all_cons, Bool.and_eq_true] at h2
    unfold jsNumberQ
    dsimp only
    rw [if_neg (digit_ne_dash c h2.1), if_pos hall]

/-- On version strings in the specification's domain, the parsed components
are exactly the written non-negative integers. -/
theorem semverParts_of_version (s : Str) (h : isVersionStr s = true) :
    semverParts s = (splitOnSep '.' s).map (fun p => (digitsToNat p : Int)) := by
  unfold isVersionStr at h
  simp only [Bool.and_eq_true] at h
  unfold semverParts
  apply List.map_congr_left
  intro p hp
  have hpd := List.all_eq_true.mp h.2 p hp
  simp only [Bool.and_eq_true] at hpd
  obtain ⟨hne, hdig⟩ := hpd
  have hpe : p ≠ [] := by
    intro hc
    subst hc
    simp at hne
  rw [jsNumberQ_digits p hpe hdig]
  rfl

/-- The second component of one max-reduction step is the version-code
maximum step. -/
theorem stepBest_snd (acc : Option Str × Int) (r : Option StoreVersionInfo) :
    (stepBest acc r).2 = codeStep acc.2 r := by
  rcases r with _ | ⟨vn, vc⟩
  · rfl
  · rcases vc with _ | v
    · rfl
    · dsimp [stepBest, codeStep]
      by_cases h : acc.2 < v
      · rw [if_pos h, max_eq_right h.le]
      · rw [if_neg h, max_eq_left (not_lt.mp h)]

/-- The code component of the max-reduction folds independently of the name
component. -/
theorem foldl_stepBest_snd (rs : List (Option StoreVersionInfo)) :
    ∀ acc, (rs.foldl stepBest acc).2 = rs.foldl codeStep acc.2 := by
  induction rs with
  | nil => intro acc; rfl
  | cons r rs ih =>
    intro acc
    simp only [List.foldl_cons]
    rw [ih, stepBest_snd]

/-- The best version code found by the reduction is exactly the maximum
version code over the records. -/
theorem bestOf_snd_eq_maxCode (rs : List (Option StoreVersionInfo)) :
    (bestOf rs).2 = maxCode rs :=
  foldl_stepBest_snd rs (none, 0)

/-- One reduction step preserves "the best name, when present, is
non-empty". -/
theorem stepBest_fst_truthy (acc : Option Str × Int) (r : Option StoreVersionInfo)
    (h : ∀ m, acc.1 = some m → m ≠ []) :
    ∀ n, (stepBest acc r).1 = some n → n ≠ [] := by
  intro n hn
  rcases r with _ | ⟨vn, vc⟩
  · exact h n hn
  · dsimp [stepBest] at hn
    rcases vn with _ | nm
    · exact h n hn
    · dsimp only at hn
      split at hn
      · exact h n hn
      · rename_i hnm
        rcases hacc : acc.1 with _ | m
        · rw [hacc] at hn
          dsimp only at hn
          cases hn
          exact hnm
        · rw [hacc] at hn
          dsimp only at hn
          split at hn
          · cases hn
            exact hnm
          · cases hn
            exact h _ hacc

/-- The best version name found by the reduction, when present, is
non-empty. -/
theorem bestOf_fst_truthy (rs : List (Option StoreVersionInfo)) :
    ∀ n, (bestOf rs).1 = some n → n ≠ [] := by
  unfold bestOf
  suffices hgen : ∀ acc, (∀ m, acc.1 = some m → m ≠ []) →
      ∀ n, (rs.foldl stepBest acc).1 = some n → n ≠ [] by
    exact hgen (none, 0) (by intro m hm; cases hm)
  induction rs with
  | nil => intro acc hacc; exact hacc
  | cons r rs ih =>
    intro acc hacc
    simp only [List.foldl_cons]
    exact ih (stepBest acc r) (stepBest_fst_truthy acc r hacc)

/-- The name half of one max-reduction step depends only on the best name. -/
theorem stepBest_fst (acc : Option Str × Int) (r : Option StoreVersionInfo) :
    (stepBest acc r).1 = nameStep acc.1 r := by
  rcases r with _ | ⟨vn, vc⟩
  · rfl
  · rcases vn with _ | n <;> rcases vc with _ | v <;> rfl

/-- The name component of the max-reduction folds independently of the code
component. -/
theorem foldl_stepBest_fst (rs : List (Option StoreVersionInfo)) :
    ∀ acc, (rs.foldl stepBest acc).1 = rs.foldl nameStep acc.1 := by
  induction rs with
  | nil => intro acc; rfl
  | cons r rs ih =>
    intro acc
    simp only [List.foldl_cons]
    rw [ih, stepBest_fst]

/-- `compareSemver` is reflexive. -/
theorem compareSemver_self (n : Str) : compareSemver n n = 0 := by
  unfold compareSemver
  exact (cmpParts_eq_zero_iff _ _).mpr (fun i => rfl)

/-- `compareSemver` is antisymmetric on all strings. -/
theorem compareSemver_antisymm (a b : Str) : compareSemver a b = - compareSemver b a :=
  cmpParts_antisymm _ _

/-- The comparison loop is negative exactly when at the first differing
index the left component is smaller. -/
theorem cmpParts_neg_iff (xs ys : List Int) : cmpParts xs ys < 0 ↔
    seqLt (fun i => xs.getD i 0) (fun i => ys.getD i 0) := by
  have ha := cmpParts_antisymm xs ys
  have hc : cmpParts xs ys < 0 ↔ 0 < cmpParts ys xs := by omega
  rw [hc, cmpParts_pos_iff]
  unfold seqLt
  constructor
  · rintro ⟨i, hj, hi⟩
    exact ⟨i, fun j hjlt => (hj j hjlt).symm, hi⟩
  · rintro ⟨i, hj, hi⟩
    exact ⟨i, fun j hjlt => (hj j hjlt).symm, hi⟩

/-- Non-positivity of the comparison loop is pointwise equality or strict
lexicographic order of the padded component sequences. -/
theorem cmpParts_nonpos_iff (xs ys : List Int) : cmpParts xs ys ≤ 0 ↔
    (seqEq (fun i => xs.getD i 0) (fun i => ys.getD i 0)
      ∨ seqLt (fun i => xs.getD i 0) (fun i => ys.getD i 0)) := by
  have h1 := cmpParts_eq_zero_iff xs ys
  have h2 := cmpParts_neg_iff xs ys
  unfold seqEq
  constructor
  · intro h
    rcases lt_or_eq_of_le h with hlt | heq
    · exact Or.inr (h2.mp hlt)
    · exact Or.inl (h1.mp heq)
  · rintro (h | h)
    · exact le_of_eq (h1.mpr h)
    · exact le_of_lt (h2.mpr h)

/-- Strict lexicographic order on sequences is transitive. -/
theorem seqLt_trans {f g h : Nat → Int} (h1 : seqLt f g) (h2 : seqLt g h) :
    seqLt f h := by
  obtain ⟨i1, hj1, hi1⟩ := h1
  obtain ⟨i2, hj2, hi2⟩ := h2
  rcases lt_trichotomy i1 i2 with hlt | rfl | hgt
  · exact ⟨i1, fun j hj => (hj1 j hj).trans (hj2 j (hj.trans hlt)),
      by have := hj2 i1 hlt; omega⟩
  · exact ⟨i1, fun j hj => (hj1 j hj).trans (hj2 j hj), by omega⟩
  · exact ⟨i2, fun j hj => (hj1 j (hj.trans hgt)).trans (hj2 j hj),
      by have := hj1 i2 hgt; omega⟩

/-- The "not strictly newer" relation induced by `compareSemver` is
transitive. -/
theorem compareSemver_le_trans {x y z : Str}
    (h1 : compareSemver x y ≤ 0) (h2 : compareSemver y z ≤ 0) :
    compareSemver x z ≤ 0 := by
  unfold compareSemver at h1 h2 ⊢
  rw [cmpParts_nonpos_iff] at h1 h2 ⊢
  rcases h1 with h1 | h1 <;> rcases h2 with h2 | h2
  · exact Or.inl (fun i => (h1 i).trans (h2 i))
  · refine Or.inr ?_
    obtain ⟨i, hj, hi⟩ := h2
    exact ⟨i, fun j hjlt => (h1 j).trans (hj j hjlt), by have := h1 i; omega⟩
  · refine Or.inr ?_
    obtain ⟨i, hj, hi⟩ := h1
    exact ⟨i, fun j hjlt => (hj j hjlt).trans (h2 j), by have := h2 i; omega⟩
  · exact Or.inr (seqLt_trans h1 h2)

/-- The version-code maximum step is left-commutative. -/
theorem codeStep_comm (a : Int) (r1 r2 : Option StoreVersionInfo) :
    codeStep (codeStep a r1) r2 = codeStep (codeStep a r2) r1 := by
  rcases r1 with _ | ⟨n1, c1⟩ <;> rcases r2 with _ | ⟨n2, c2⟩
  · rfl
  · rfl
  · rfl
  · rcases c1 with _ | v1 <;> rcases c2 with _ | v2 <;> simp [codeStep]
    rw [max_assoc, max_comm v1 v2, ← max_assoc]

/-- The version-code maximum is invariant under permuting the records. -/
theorem maxCode_perm {rs rs' : List (Option StoreVersionInfo)} (hp : rs.Perm rs') :
    maxCode rs = maxCode rs' := by
  unfold maxCode
  suffices hgen : ∀ a, rs.foldl codeStep a = rs'.foldl codeStep a by exact hgen 0
  induction hp with
  | nil => intro a; rfl
  | cons x l12 ih => intro a; simp only [List.foldl_cons]; exact ih _
  | swap x y l => intro a; simp only [List.foldl_cons]; rw [codeStep_comm]
  | trans h1 h2 ih1 ih2 => intro a; rw [ih1, ih2]

/-- The returned build number is determined by the version-code maximum
alone. -/
theorem getLatest_snd_formula (rs : List (Option StoreVersionInfo)) :
    (getLatestVersionForApps rs).2 = if 0 < maxCode rs then maxCode rs + 1 else 2 := by
  have hb := bestOf_snd_eq_maxCode rs
  by_cases hpos : 0 < maxCode rs
  · rw [if_pos hpos]
    simp only [getLatestVersionForApps]
    rw [if_neg]
    · unfold incrementVersion
      dsimp only
      rw [hb, if_pos hpos]
    · rintro ⟨-, h0⟩
      rw [hb] at h0
      omega
  · rw [if_neg hpos]
    simp only [getLatestVersionForApps]
    split
    · rfl
    · unfold incrementVersion
      dsimp only
      rw [hb, if_neg (by omega)]

/-- A record without a truthy name leaves the name step unchanged. -/
theorem nameStep_of_truthy_none {acc : Option Str} {r : Option StoreVersionInfo}
    (h : truthyName r = none) : nameStep acc r = acc := by
  rcases r with _ | ⟨vn, vc⟩
  · rfl
  · rcases vn with _ | x
    · rfl
    · simp only [truthyName] at h
      split at h
      · rename_i hx
        simp [nameStep, hx]
      · cases h

/-- A record with a truthy name updates the name step by the strict
`compareSemver` test. -/
theorem nameStep_of_truthy_some {acc : Option Str} {r : Option StoreVersionInfo} {t : Str}
    (h : truthyName r = some t) :
    nameStep acc r
      = match acc with
        | none => some t
        | some m => if 0 < compareSemver t m then some t else some m := by
  rcases r with _ | ⟨vn, vc⟩
  · cases h
  · rcases vn with _ | x
    · cases h
    · simp only [truthyName] at h
      split at h
      · cases h
      · rename_i hx
        cases h
        simp [nameStep, hx]

/-- The name fold is empty exactly when it started empty and no record
carried a truthy name. -/
theorem foldl_nameStep_none_iff (rs : List (Option StoreVersionInfo)) :
    ∀ acc, rs.foldl nameStep acc = none ↔ acc = none ∧ truthyNames rs = [] := by
  induction rs with
  | nil =>
    intro acc
    simp [truthyNames]
  | cons r rs ih =>
    intro acc
    simp only [List.foldl_cons]
    rw [ih]
    cases htr : truthyName r
    · rw [nameStep_of_truthy_none htr]
      simp [truthyNames, List.filterMap_cons, htr]
    · rw [nameStep_of_truthy_some htr]
      simp only [truthyNames, List.filterMap_cons, htr]
      constructor
      · rintro ⟨hsome, -⟩
        exfalso
        rcases acc with _ | a
        · cases hsome
        · dsimp only at hsome
          split at hsome <;> cases hsome
      · rintro ⟨-, hcons⟩
        cases hcons

/-- The name fold returns a maximal truthy name: the result bounds every
candidate under `compareSemver` and is itself a candidate (or the initial
accumulator). -/
theorem foldl_nameStep_spec (rs : List (Option StoreVersionInfo)) :
    ∀ acc n, rs.foldl nameStep acc = some n →
    (∀ m ∈ truthyNames rs, compareSemver m n ≤ 0)
    ∧ (∀ a, acc = some a → compareSemver a n ≤ 0)
    ∧ (acc = some n ∨ n ∈ truthyNames rs) := by
  induction rs with
  | nil =>
    intro acc n h
    simp only [List.foldl_nil] at h
    refine ⟨?_, ?_, Or.inl h⟩
    · intro m hm
      exact absurd hm (by simp [truthyNames])
    · intro a ha
      rw [h] at ha
      cases ha
      rw [compareSemver_self]
  | cons r rs ih =>
    intro acc n h
    simp only [List.foldl_cons] at h
    obtain ⟨hmax, hacc, hmem⟩ := ih (nameStep acc r) n h
    cases htr : truthyName r with
    | none =>
      rw [nameStep_of_truthy_none htr] at hacc hmem
      refine ⟨?_, hacc, ?_⟩
      · intro m hm
        simp only [truthyNames, List.filterMap_cons, htr] at hm
        exact hmax m hm
      · rcases hmem with hl | hr
        · exact Or.inl hl
        · refine Or.inr ?_
          simp only [truthyNames, List.filterMap_cons, htr]
          exact hr
    | some t =>
      rw [nameStep_of_truthy_some htr] at hacc hmem
      have htn : compareSemver t n ≤ 0 := by
        rcases hac : acc with _ | a0
        · rw [hac] at hacc
          exact hacc t rfl
        · rw [hac] at hacc
          dsimp only at hacc
          by_cases hbeat : 0 < compareSemver t a0
          · rw [if_pos hbeat] at hacc
            exact hacc t rfl
          · rw [if_neg hbeat] at hacc
            have ha0n : compareSemver a0 n ≤ 0 := hacc a0 rfl
            exact compareSemver_le_trans (by omega) ha0n
      refine ⟨?_, ?_, ?_⟩
      · intro m hm
        simp only [truthyNames, List.filterMap_cons, htr, List.mem_cons] at hm
        rcases hm with rfl | hm
        · exact htn
        · exact hmax m hm
      · intro a ha
        subst ha
        dsimp only at hacc hmem
        by_cases hbeat : 0 < compareSemver t a
        · have hat : compareSemver a t ≤ 0 := by
            have := compareSemver_antisymm a t
            omega
          exact compareSemver_le_trans hat htn
        · rw [if_neg hbeat] at hacc
          exact hacc a rfl
      · rcases hac : acc with _ | a0
        · rw [hac] at hmem
          dsimp only at hmem
          rcases hmem with ht | hr
          · cases ht
            refine Or.inr ?_
            simp [truthyNames, List.filterMap_cons, htr]
          · refine Or.inr ?_
            simp only [truthyNames, List.filterMap_cons, htr]
            exact List.mem_cons_of_mem t hr
        · rw [hac] at hmem
          dsimp only at hmem
          rcases hmem with hl | hr
          · split at hl
            · cases hl
              refine Or.inr ?_
              simp [truthyNames, List.filterMap_cons, htr]
            · exact Or.inl hl
          · refine Or.inr ?_
            simp only [truthyNames, List.filterMap_cons, htr]
            exact List.mem_cons_of_mem t hr

/-- The best name is absent exactly when no record carried a truthy name. -/
theorem bestOf_fst_none_iff (rs : List (Option StoreVersionInfo)) :
    (bestOf rs).1 = none ↔ truthyNames rs = [] := by
  unfold bestOf
  rw [foldl_stepBest_fst rs (none, 0), foldl_nameStep_none_iff rs none]
  simp

/-- The best name is a `compareSemver`-maximal truthy name of the records. -/
theorem bestOf_fst_spec (rs : List (Option StoreVersionInfo)) (n : Str)
    (h : (bestOf rs).1 = some n) :
    n ∈ truthyNames rs ∧ ∀ m ∈ truthyNames rs, compareSemver m n ≤ 0 := by
  unfold bestOf at h
  rw [foldl_stepBest_fst rs (none, 0)] at h
  obtain ⟨hmax, -, hmem⟩ := foldl_nameStep_spec rs none n h
  rcases hmem with hl | hr
  · cases hl
  · exact ⟨hr, hmax⟩

/-- `incrementVersion` never produces an empty version name. -/
theorem incrementVersion_fst_ne_nil (vn : Option Str) (vc : Int) :
    (incrementVersion vn vc).1 ≠ [] := by
  unfold incrementVersion
  cases vn with
  | none =>
    dsimp only
    decide
  | some s =>
    dsimp only
    split
    · decide
    · split
      · apply joinDots_ne_nil
        rename_i hlen
        simp only [List.length_append, List.length_dropLast, List.length_cons,
          List.length_nil]
        omega
      · decide

/-- `incrementVersion` never produces a build number below `2`. -/
theorem incrementVersion_snd_ge_two (vn : Option Str) (vc : Int) :
    2 ≤ (incrementVersion vn vc).2 := by
  unfold incrementVersion
  dsimp only
  split <;> omega

/-- Deduplication returns a subset of its input. -/
theorem dedupFirst_go_subset : ∀ (l : List Str) (seen : List Str) (a : Str),
    a ∈ dedupFirst.go seen l → a ∈ l := by
  intro l
  induction l with
  | nil => intro seen a h; exact absurd h (by simp [dedupFirst.go])
  | cons x xs ih =>
    intro seen a h
    simp only [dedupFirst.go] at h
    split at h
    · exact List.mem_cons_of_mem x (ih seen a h)
    · rcases List.mem_cons.mp h with rfl | h2
      · exact List.mem_cons_self _ _
      · exact List.mem_cons_of_mem _ (ih _ _ h2)

/-- Deduplication never emits an already-seen element. -/
theorem dedupFirst_go_not_mem_seen : ∀ (l : List Str) (seen : List Str) (a : Str),
    a ∈ seen → a ∉ dedupFirst.go seen l := by
  intro l
  induction l with
  | nil => intro seen a _ h; simp [dedupFirst.go] at h
  | cons x xs ih =>
    intro seen a ha h
    simp only [dedupFirst.go] at h
    split at h
    · exact ih seen a ha h
    · rename_i hx
      rcases List.mem_cons.mp h with rfl | h2
      · exact hx ha
      · exact ih _ _ (List.mem_cons_of_mem _ ha) h2

/-- Deduplication yields a duplicate-free list. -/
theorem dedupFirst_go_nodup : ∀ (l : List Str) (seen : List Str),
    (dedupFirst.go seen l).Nodup := by
  intro l
  induction l with
  | nil => intro seen; simp [dedupFirst.go]
  | cons x xs ih =>
    intro seen
    simp only [dedupFirst.go]
    split
    · exact ih seen
    · exact List.nodup_cons.mpr
        ⟨dedupFirst_go_not_mem_seen xs (x :: seen) x (List.mem_cons_self x seen),
          ih (x :: seen)⟩

/-- The fuzzy candidate set is duplicate-free. -/
theorem fuzzyCandidates_nodup (b : Str) (rem : List Str) :
    (fuzzyCandidates b rem).Nodup :=
  dedupFirst_go_nodup _ []

/-- Every fuzzy candidate is one of the remote branches. -/
theorem fuzzyCandidates_subset (b : Str) (rem : List Str) :
    ∀ c ∈ fuzzyCandidates b rem, c ∈ rem := by
  intro c hc
  have h1 : c ∈ (searchPatterns b).flatMap
      (fun p => rem.filter (fun br => containsCI (remoteLine br) p)) :=
    dedupFirst_go_subset _ [] c hc
  rw [List.mem_flatMap] at h1
  obtain ⟨p, -, hp2⟩ := h1
  exact (List.mem_filter.mp hp2).1

/-! ## Claim theorems -/

/-- C3: `resolveNextVersion` (the pure core of `getLatestVersionForApps`) is
a function of the settled store records alone: the single record
`(versionName "1.2.3", code 10)` yields `versionName "1.2.4"` and build
number `11`, and the empty record set yields the bootstrap values
`"1.0.1"` and `2`. -/
theorem resolveNextVersion_examples :
    getLatestVersionForApps [some ⟨some ("1.2.3" : String).data, some 10⟩]
        = (("1.2.4" : String).data, 11)
    ∧ getLatestVersionForApps [] = (("1.0.1" : String).data, 2) := by
  constructor <;> decide

/-- C7: per-platform store lookups never raise: `getAndroidVersion` returns
`none` on a missing credential file, on any thrown step (token exchange,
edit creation, track request), and on an empty release list;
`getIOSVersion` returns `none` on a missing config file, on any thrown step,
on no matching app, and on no builds; and in the per-app fan-out a failed or
thrown lookup (settled as `none`) leaves every other app's contribution to
the aggregate intact — the overall resolution is a total function. -/
theorem storeLookups_never_raise :
    (∀ env : AndroidEnv, env.saExists = false → getAndroidVersion env = none)
    ∧ (∀ env : AndroidEnv,
        env.tokenOk = false ∨ env.editOk = false ∨ env.releases = none →
        getAndroidVersion env = none)
    ∧ (∀ env : AndroidEnv, env.releases = some [] → getAndroidVersion env = none)
    ∧ (∀ env : IOSEnv, env.configExists = false → getIOSVersion env = none)
    ∧ (∀ env : IOSEnv,
        env.jwtOk = false ∨ env.apps = none ∨ env.apps = some [] ∨
          env.builds = none ∨ env.builds = some [] →
        getIOSVersion env = none)
    ∧ (∀ l1 l2 : List (Option StoreVersionInfo),
        getLatestVersionForApps (l1 ++ none :: l2) = getLatestVersionForApps (l1 ++ l2)) := by
  refine ⟨?_, ?_, ?_, ?_, ?_, ?_⟩
  · intro env h
    simp [getAndroidVersion, h]
  · intro env h
    unfold getAndroidVersion
    cases hs : env.saExists
    · simp
    · cases ht : env.tokenOk
      · simp
      · cases he : env.editOk
        · simp
        · rcases h with h | h | h
          · rw [ht] at h; cases h
          · rw [he] at h; cases h
          · rw [h]
            simp
  · intro env h
    simp [getAndroidVersion, h]
  · intro env h
    simp [getIOSVersion, h]
  · intro env h
    unfold getIOSVersion
    cases hc : env.configExists
    · simp
    · cases hj : env.jwtOk
      · simp
      · rcases h with h | h | h | h | h
        · rw [hj] at h; cases h
        · rw [h]; simp
        · rw [h]; simp
        · rw [h]
          simp
          split <;> simp
        · rw [h]
          simp
          split <;> simp
  · intro l1 l2
    simp [getLatestVersionForApps, bestOf_skip_none]

/-- Witness for C7 at concrete inputs. -/
theorem storeLookups_never_raise_witness :
    getAndroidVersion ⟨false, true, true, some [⟨[5], none⟩]⟩ = none
    ∧ getAndroidVersion ⟨true, false, true, some []⟩ = none
    ∧ getIOSVersion ⟨false, true, some [()], some [("7" : String).data], none⟩ = none
    ∧ getLatestVersionForApps
        [some ⟨some ("1.2.3" : String).data, some 10⟩, none]
        = getLatestVersionForApps [some ⟨some ("1.2.3" : String).data, some 10⟩] := by
  refine ⟨?_, ?_, ?_, ?_⟩
  · exact storeLookups_never_raise.1 _ rfl
  · exact storeLookups_never_raise.2.1 _ (Or.inl rfl)
  · exact storeLookups_never_raise.2.2.2.1 _ rfl
  · exact storeLookups_never_raise.2.2.2.2.2
      [some ⟨some ("1.2.3" : String).data, some 10⟩] []

/-- C1 (code bug): while a build is in progress (`isBuilding = true`), a
second build request is rejected with the busy notification, writes no file
and starts no process — but the run's `finally` clause then assigns
`isBuilding = false`, releasing the lock still owned by the in-flight build,
so the rejection does touch shared state and a subsequent request would
start a concurrent second build. -/
theorem busy_rejection_clears_foreign_lock :
    runHandler ⟨true, ("OLD" : String).data⟩
        ⟨("SCRIPT" : String).data, ("build.sh a u" : String).data, [], false⟩ envAllOk
      = (⟨false, ("OLD" : String).data⟩, [.send .busy, .setLock false]) := by
  decide

/-- C2: the build lock of a single orchestration run: every run terminates
with `isBuilding = false` (the `finally` clause runs on success, branch
failure, execution failure and unexpected exception alike), and whenever a
run actually spawns the build it found the lock free at entry and recorded
setting it to `true` beforehand. -/
theorem lock_lifecycle (s : SysState) (req : BuildRequest) (env : RunEnv) :
    ((runHandler s req env).1).isBuilding = false
    ∧ (Action.execBuild req.command ∈ (runHandler s req env).2 →
        s.isBuilding = false ∧ Action.setLock true ∈ (runHandler s req env).2) := by
  constructor
  · rfl
  · intro hmem
    obtain ⟨extra, heq, hno⟩ := runHandler_trace s req env
    rw [heq] at hmem
    rcases List.mem_append.mp hmem with h | h
    · obtain ⟨hfree, hlock⟩ := runTry_exec s req env req.command h
      exact ⟨hfree, by rw [heq]; exact List.mem_append.mpr (Or.inl hlock)⟩
    · exact absurd rfl (hno _ h)

/-- C10: whatever the per-app lookup outcomes — including every lookup
failing, throwing, or returning nothing — `getLatestVersionForApps` always
returns a non-empty version name and a build number of at least `2`. -/
theorem resolvedVersion_always_valid (rs : List (Option StoreVersionInfo)) :
    (getLatestVersionForApps rs).1 ≠ [] ∧ 2 ≤ (getLatestVersionForApps rs).2 := by
  simp only [getLatestVersionForApps]
  split
  · exact ⟨by decide, by norm_num⟩
  · exact ⟨incrementVersion_fst_ne_nil _ _, incrementVersion_snd_ge_two _ _⟩

/-- C4 counterexample: the claim as stated fails on the code.  With the
single found record `(versionName "2.0.0", code 0)` a store version *was*
found, yet the resulting build number is the bootstrap `2`, not the claimed
maximum-version-code-plus-one `0 + 1 = 1`; and with the single record
`(versionName "1.2", code 5)` a version name *was* found, yet the result is
the fallback `"1.0.1"`, not the claimed last-component increment `"1.3"`
(the code only increments names with at least three dot components). -/
theorem resolveNextVersion_claim_cex :
    (getLatestVersionForApps [some ⟨some ("2.0.0" : String).data, some 0⟩]).2 = 2
    ∧ maxCode [some ⟨some ("2.0.0" : String).data, some 0⟩] + 1 ≠ 2
    ∧ (getLatestVersionForApps [some ⟨some ("1.2" : String).data, some 5⟩]).1
        = ("1.0.1" : String).data
    ∧ ("1.0.1" : String).data ≠ ("1.3" : String).data := by
  refine ⟨by decide, by decide, by decide, by decide⟩

/-- C4 as amended: the resulting build number is the maximum version code
plus one exactly when that maximum is positive (else the bootstrap `2`); and
the new version name increments the last dot component of the best found
name only when that name has at least three dot-separated components with a
numeric last component, falling back to the fixed default `"1.0.1"` when the
name has fewer than three components or when no name was found. -/
theorem resolveNextVersion_increment_amended (rs : List (Option StoreVersionInfo)) :
    (0 < maxCode rs → (getLatestVersionForApps rs).2 = maxCode rs + 1)
    ∧ (maxCode rs ≤ 0 → (getLatestVersionForApps rs).2 = 2)
    ∧ (∀ n, (bestOf rs).1 = some n →
        (3 ≤ (splitOnSep '.' n).length →
          ((splitOnSep '.' n).getLastD []) ≠ [] →
          ((splitOnSep '.' n).getLastD []).all Char.isDigit = true →
          (getLatestVersionForApps rs).1
            = joinDots ((splitOnSep '.' n).dropLast
                ++ [intToStr ((digitsToNat ((splitOnSep '.' n).getLastD []) : Int) + 1)]))
        ∧ ((splitOnSep '.' n).length < 3 →
          (getLatestVersionForApps rs).1 = ("1.0.1" : String).data))
    ∧ ((bestOf rs).1 = none → (getLatestVersionForApps rs).1 = ("1.0.1" : String).data) := by
  have hb2 := bestOf_snd_eq_maxCode rs
  refine ⟨?_, ?_, ?_, ?_⟩
  · intro hpos
    simp only [getLatestVersionForApps]
    rw [if_neg]
    · unfold incrementVersion
      dsimp only
      rw [hb2, if_pos hpos]
    · rintro ⟨-, h0⟩
      rw [hb2] at h0
      omega
  · intro hle
    simp only [getLatestVersionForApps]
    split
    · rfl
    · unfold incrementVersion
      dsimp only
      rw [hb2, if_neg (by omega)]
  · intro n hn
    have hne : n ≠ [] := bestOf_fst_truthy rs n hn
    have hcond : ¬ ((jsFalsyName (bestOf rs).1 : Prop) ∧ (bestOf rs).2 = 0) := by
      rintro ⟨hf, -⟩
      rw [hn] at hf
      simp only [jsFalsyName, decide_eq_true_eq] at hf
      exact hne hf
    constructor
    · intro h3 hlast hdig
      simp only [getLatestVersionForApps]
      rw [if_neg hcond, hn]
      unfold incrementVersion
      dsimp only
      rw [if_neg hne, if_pos h3, jsParseInt_digits _ hlast hdig]
    · intro h3
      simp only [getLatestVersionForApps]
      rw [if_neg hcond, hn]
      unfold incrementVersion
      dsimp only
      rw [if_neg hne, if_neg (by omega)]
  · intro hn
    simp only [getLatestVersionForApps]
    split
    · rfl
    · rw [hn]
      rfl

/-- Witness for the amended C4 on the record `(versionName "1.2.3",
code 10)`: the build number is `10 + 1` and the version name increments the
last component. -/
theorem resolveNextVersion_increment_amended_witness :
    (0 : Int) < maxCode [some ⟨some ("1.2.3" : String).data, some 10⟩]
    ∧ (getLatestVersionForApps [some ⟨some ("1.2.3" : String).data, some 10⟩]).2
        = maxCode [some ⟨some ("1.2.3" : String).data, some 10⟩] + 1
    ∧ (getLatestVersionForApps [some ⟨some ("1.2.3" : String).data, some 10⟩]).1
        = joinDots ((splitOnSep '.' ("1.2.3" : String).data).dropLast
            ++ [intToStr ((digitsToNat
                ((splitOnSep '.' ("1.2.3" : String).data).getLastD []) : Int) + 1)]) := by
  refine ⟨by decide, ?_, ?_⟩
  · exact (resolveNextVersion_increment_amended _).1 (by decide)
  · exact ((resolveNextVersion_increment_amended
      [some ⟨some ("1.2.3" : String).data, some 10⟩]).2.2.1
      ("1.2.3" : String).data (by decide)).1 (by decide) (by decide) (by decide)

/-- C5: on version strings with at most four dot-separated non-negative
integer components, `compareSemver` is antisymmetric and agrees with
componentwise integer comparison of the written components, treating absent
trailing components as `0`; in particular `compareSemver("1.2", "1.2.0")`
is `0`. -/
theorem compareSemver_componentwise (a b : Str)
    (ha : isVersionStr a = true) (hb : isVersionStr b = true) :
    compareSemver a b = - compareSemver b a
    ∧ (compareSemver a b = 0 ↔
        ∀ i, ((splitOnSep '.' a).map (fun p => (digitsToNat p : Int))).getD i 0
           = ((splitOnSep '.' b).map (fun p => (digitsToNat p : Int))).getD i 0)
    ∧ (0 < compareSemver a b ↔
        ∃ i : Nat, (∀ j, j < i →
            ((splitOnSep '.' a).map (fun p => (digitsToNat p : Int))).getD j 0
              = ((splitOnSep '.' b).map (fun p => (digitsToNat p : Int))).getD j 0)
          ∧ ((splitOnSep '.' b).map (fun p => (digitsToNat p : Int))).getD i 0
              < ((splitOnSep '.' a).map (fun p => (digitsToNat p : Int))).getD i 0)
    ∧ compareSemver ("1.2" : String).data ("1.2.0" : String).data = 0 := by
  have hA := semverParts_of_version a ha
  have hB := semverParts_of_version b hb
  refine ⟨cmpParts_antisymm _ _, ?_, ?_, by decide⟩
  · unfold compareSemver
    rw [hA, hB]
    exact cmpParts_eq_zero_iff _ _
  · unfold compareSemver
    rw [hA, hB]
    exact cmpParts_pos_iff _ _

/-- Witness for C5 at the specification's example pair. -/
theorem compareSemver_componentwise_witness :
    isVersionStr ("1.2" : String).data = true
    ∧ isVersionStr ("1.2.0" : String).data = true
    ∧ compareSemver ("1.2" : String).data ("1.2.0" : String).data
        = - compareSemver ("1.2.0" : String).data ("1.2" : String).data
    ∧ compareSemver ("1.2" : String).data ("1.2.0" : String).data = 0 := by
  refine ⟨by decide, by decide, ?_, ?_⟩
  · exact (compareSemver_componentwise ("1.2" : String).data ("1.2.0" : String).data
      (by decide) (by decide)).1
  · exact (compareSemver_componentwise ("1.2" : String).data ("1.2.0" : String).data
      (by decide) (by decide)).2.2.2

/-- C6 counterexample: the fuzzy matching does not run the variants against
the remote branch *names* — it greps the raw `git branch -r` output lines
(`"  origin/<name>"`).  For the token `"origin"` against the branch list
`["main"]`, the claim's algorithm finds zero candidates (`"main"` does not
contain `"origin"`) and must answer `NotFound`, but the code matches the
line decoration and answers `FuzzyMatch("main")`. -/
theorem resolveBranch_claim_cex :
    resolveBranch ("origin" : String).data [("main" : String).data]
        = .fuzzy ("main" : String).data
    ∧ specFuzzyCandidates ("origin" : String).data [("main" : String).data] = []
    ∧ specResolveBranch ("origin" : String).data [("main" : String).data] = .notFound := by
  refine ⟨by decide, by decide, by decide⟩

/-- C6 as amended: branch resolution follows the four-outcome algorithm —
exact match wins; otherwise the deduplicated candidates collected by
matching the normalized variants as case-insensitive substrings *of the
decorated `git branch -r` output lines* decide the outcome (one → fuzzy,
several → ambiguous surfacing the candidate list, none → not found); the
candidate set is duplicate-free and drawn from the remote branches; and the
specification's three examples behave as stated. -/
theorem resolveBranch_amended :
    (resolveBranch ("dark mode" : String).data
        [("feature/dark_mode" : String).data, ("release/dark-mode-fix" : String).data]
      = .ambiguous [("feature/dark_mode" : String).data,
          ("release/dark-mode-fix" : String).data])
    ∧ (resolveBranch ("main" : String).data
        [("main" : String).data, ("develop" : String).data]
      = .exact ("main" : String).data)
    ∧ (resolveBranch ("xyz" : String).data [("main" : String).data] = .notFound)
    ∧ (∀ b rem, b ∈ rem → resolveBranch b rem = .exact b)
    ∧ (∀ b rem, b ∉ rem →
        (fuzzyCandidates b rem = [] → resolveBranch b rem = .notFound)
        ∧ (∀ c, fuzzyCandidates b rem = [c] → resolveBranch b rem = .fuzzy c)
        ∧ (2 ≤ (fuzzyCandidates b rem).length →
            resolveBranch b rem = .ambiguous (fuzzyCandidates b rem)))
    ∧ (∀ b rem, (fuzzyCandidates b rem).Nodup ∧ ∀ c ∈ fuzzyCandidates b rem, c ∈ rem) := by
  refine ⟨by decide, by decide, by decide, ?_, ?_, ?_⟩
  · intro b rem hb
    simp [resolveBranch, hb]
  · intro b rem hb
    refine ⟨?_, ?_, ?_⟩
    · intro hc
      simp only [resolveBranch, if_neg hb, hc]
    · intro c hc
      simp only [resolveBranch, if_neg hb, hc]
    · intro hlen
      cases hc : fuzzyCandidates b rem with
      | nil => rw [hc] at hlen; simp at hlen
      | cons c cs =>
        cases cs with
        | nil => rw [hc] at hlen; simp at hlen
        | cons c2 rest => simp only [resolveBranch, if_neg hb, hc]
  · intro b rem
    exact ⟨fuzzyCandidates_nodup b rem, fuzzyCandidates_subset b rem⟩

/-- Witness for the amended C6 at the specification's own examples. -/
theorem resolveBranch_amended_witness :
    resolveBranch ("main" : String).data
        [("main" : String).data, ("develop" : String).data]
      = .exact ("main" : String).data
    ∧ resolveBranch ("xyz" : String).data [("main" : String).data] = .notFound := by
  constructor
  · exact resolveBranch_amended.2.2.2.1 _ _ (by decide)
  · exact (resolveBranch_amended.2.2.2.2.1 _ [("main" : String).data] (by decide)).1
      (by decide)

/-- C8 counterexample: the aggregate result is *not* invariant under every
permutation of the lookup results.  The name reduction keeps the first
`compareSemver`-maximal name, so swapping two records whose names are
semver-equal but textually different (`"1.2"` vs `"1.2.0"`) changes the
selected name and, downstream, the produced next version (`"1.0.1"` vs
`"1.2.1"`, since only names with three components are incremented). -/
theorem aggregate_order_cex :
    List.Perm
      [some (⟨some ("1.2" : String).data, some 5⟩ : StoreVersionInfo),
        some ⟨some ("1.2.0" : String).data, some 5⟩]
      [some ⟨some ("1.2.0" : String).data, some 5⟩,
        some ⟨some ("1.2" : String).data, some 5⟩]
    ∧ (getLatestVersionForApps
        [some ⟨some ("1.2" : String).data, some 5⟩,
          some ⟨some ("1.2.0" : String).data, some 5⟩]).1
      ≠ (getLatestVersionForApps
        [some ⟨some ("1.2.0" : String).data, some 5⟩,
          some ⟨some ("1.2" : String).data, some 5⟩]).1 := by
  constructor
  · exact List.Perm.swap _ _ _
  · decide

/-- C8 as amended: the best version across apps is computed as two
independent maxima — the best code is the fold of `max` over the version
codes, and the best name is a `compareSemver`-maximal truthy name.  Under
any permutation of the results the maximum code, and hence the resulting
build number, is unchanged, and the selected version name is unchanged *up
to semver equality* (absent under one order exactly when absent under the
other, and any two selected names compare equal under `compareSemver`);
the name's exact text may differ when distinct semver-equal names occur. -/
theorem aggregate_perm_amended (rs rs' : List (Option StoreVersionInfo))
    (hp : rs.Perm rs') :
    (bestOf rs).2 = maxCode rs
    ∧ maxCode rs = maxCode rs'
    ∧ (getLatestVersionForApps rs).2 = (getLatestVersionForApps rs').2
    ∧ ((bestOf rs).1 = none ↔ (bestOf rs').1 = none)
    ∧ (∀ n, (bestOf rs).1 = some n →
        n ∈ truthyNames rs ∧ ∀ m ∈ truthyNames rs, compareSemver m n ≤ 0)
    ∧ (∀ n n', (bestOf rs).1 = some n → (bestOf rs').1 = some n' →
        compareSemver n n' = 0) := by
  have htp : (truthyNames rs).Perm (truthyNames rs') := hp.filterMap _
  refine ⟨bestOf_snd_eq_maxCode rs, maxCode_perm hp, ?_, ?_, ?_, ?_⟩
  · rw [getLatest_snd_formula, getLatest_snd_formula, maxCode_perm hp]
  · rw [bestOf_fst_none_iff, bestOf_fst_none_iff]
    constructor
    · intro h
      have h2 := htp
      rw [h] at h2
      exact h2.symm.eq_nil
    · intro h
      have h2 := htp
      rw [h] at h2
      exact h2.eq_nil
  · exact fun n h => bestOf_fst_spec rs n h
  · intro n n' hn hn'
    obtain ⟨hmem, hmax⟩ := bestOf_fst_spec rs n hn
    obtain ⟨hmem', hmax'⟩ := bestOf_fst_spec rs' n' hn'
    have h1 : compareSemver n n' ≤ 0 := hmax' n (htp.mem_iff.mp hmem)
    have h2 : compareSemver n' n ≤ 0 := hmax n' (htp.mem_iff.mpr hmem')
    have h3 := compareSemver_antisymm n n'
    omega

/-- Witness for the amended C8 on a swapped two-record list. -/
theorem aggregate_perm_amended_witness :
    maxCode [some (⟨some ("2.0.0" : String).data, some 7⟩ : StoreVersionInfo), none]
      = maxCode [none, some ⟨some ("2.0.0" : String).data, some 7⟩]
    ∧ (getLatestVersionForApps
        [some (⟨some ("2.0.0" : String).data, some 7⟩ : StoreVersionInfo), none]).2
      = (getLatestVersionForApps
        [none, some ⟨some ("2.0.0" : String).data, some 7⟩]).2
    ∧ compareSemver ("2.0.0" : String).data ("2.0.0" : String).data = 0 := by
  have h := aggregate_perm_amended
    [some (⟨some ("2.0.0" : String).data, some 7⟩ : StoreVersionInfo), none]
    [none, some ⟨some ("2.0.0" : String).data, some 7⟩]
    (List.Perm.swap _ _ _)
  exact ⟨h.2.1, h.2.2.1, h.2.2.2.2.2 _ _ (by decide) (by decide)⟩

/-- Witness for C2: a fully successful run on a free lock spawns the build
with the lock acquisition in its trace and still terminates lock-free. -/
theorem lock_lifecycle_witness :
    ((runHandler ⟨false, []⟩
        ⟨("S" : String).data, ("build.sh a u" : String).data, [], false⟩ envAllOk).1).isBuilding
        = false
    ∧ (runHandler ⟨false, []⟩
        ⟨("S" : String).data, ("build.sh a u" : String).data, [], false⟩ envAllOk).1.isBuilding
        = false
    ∧ Action.setLock true ∈ (runHandler ⟨false, []⟩
        ⟨("S" : String).data, ("build.sh a u" : String).data, [], false⟩ envAllOk).2 := by
  refine ⟨(lock_lifecycle ⟨false, []⟩ _ envAllOk).1, ?_, ?_⟩
  · exact (lock_lifecycle ⟨false, []⟩ _ envAllOk).1
  · exact ((lock_lifecycle ⟨false, []⟩
      ⟨("S" : String).data, ("build.sh a u" : String).data, [], false⟩ envAllOk).2
      (by decide)).2

/-- Replacement templates without a dollar sign substitute to themselves. -/
theorem dollarSub_no_dollar (matched pre suf : Str) :
    ∀ tpl : Str, '$' ∉ tpl → dollarSub matched pre suf tpl = tpl := by
  intro tpl
  induction tpl with
  | nil => intro _; rfl
  | cons c rest ih =>
    intro h
    have hc : c ≠ '$' := fun hc => h (hc ▸ List.mem_cons_self c rest)
    have hrest : '$' ∉ rest := fun hr => h (List.mem_cons_of_mem c hr)
    unfold dollarSub
    rw [if_neg hc, ih hrest]

/-- A string leads with itself before any suffix. -/
theorem leadsWith_append_self (m : Str) : ∀ t, leadsWith m (m ++ t) = true := by
  induction m with
  | nil => intro t; rfl
  | cons c cs ih =>
    intro t
    simp only [List.cons_append, leadsWith, List.append_eq]
    rw [ih t]
    simp

/-- `takeWhile` of a list whose head fails the test is empty. -/
theorem takeWhile_nil_of_head {p : Char → Bool} :
    ∀ l2 : Str, (∀ c, l2.head? = some c → p c = false) → l2.takeWhile p = [] := by
  intro l2 h
  cases l2 with
  | nil => rfl
  | cons c cs =>
    have := h c rfl
    simp [List.takeWhile, this]

/-- `takeWhile` keeps exactly the left part when it all passes and the right part starts failing. -/
theorem takeWhile_append_all {p : Char → Bool} :
    ∀ l1 l2 : Str, l1.all p = true → (∀ c, l2.head? = some c → p c = false) →
    (l1 ++ l2).takeWhile p = l1 := by
  intro l1
  induction l1 with
  | nil =>
    intro l2 _ h2
    exact takeWhile_nil_of_head l2 h2
  | cons c cs ih =>
    intro l2 h1 h2
    simp only [List.all_cons, Bool.and_eq_true] at h1
    simp only [List.cons_append, List.takeWhile, h1.1, List.append_eq]
    rw [ih l2 h1.2 h2]

/-- `dropWhile` drops exactly the left part when it all passes and the right part starts failing. -/
theorem dropWhile_append_all {p : Char → Bool} :
    ∀ l1 l2 : Str, l1.all p = true → (∀ c, l2.head? = some c → p c = false) →
    (l1 ++ l2).dropWhile p = l2 := by
  intro l1
  induction l1 with
  | nil =>
    intro l2 _ h2
    cases l2 with
    | nil => rfl
    | cons c cs =>
      have := h2 c rfl
      simp [List.dropWhile, this]
  | cons c cs ih =>
    intro l2 h1 h2
    simp only [List.all_cons, Bool.and_eq_true] at h1
    simp only [List.cons_append, List.dropWhile, h1.1, List.append_eq]
    exact ih l2 h1.2 h2


/-- `leadsWith` only inspects the first `m.length` characters. -/
theorem leadsWith_eq_of_take (m : Str) : ∀ s s' : Str,
    s.take m.length = s'.take m.length → leadsWith m s = leadsWith m s' := by
  induction m with
  | nil => intro s s' _; rfl
  | cons c cs ih =>
    intro s s' h
    cases s with
    | nil =>
      cases s' with
      | nil => rfl
      | cons b bs => simp [List.take] at h
    | cons a as =>
      cases s' with
      | nil => simp [List.take] at h
      | cons b bs =>
        simp only [List.length_cons, List.take, List.cons.injEq] at h
        simp only [leadsWith]
        rw [h.1, ih as bs h.2]

/-- The character at an index is determined by any longer prefix. -/
theorem head_drop_eq_of_take : ∀ (k : Nat) (s s' : Str),
    s.take (k + 1) = s'.take (k + 1) → (s.drop k).head? = (s'.drop k).head? := by
  intro k
  induction k with
  | zero =>
    intro s s' h
    cases s <;> cases s' <;> simp_all [List.take]
  | succ k ih =>
    intro s s' h
    cases s with
    | nil =>
      cases s' with
      | nil => rfl
      | cons b bs => simp [List.take] at h
    | cons a as =>
      cases s' with
      | nil => simp [List.take] at h
      | cons b bs =>
        simp only [List.take, List.cons.injEq] at h
        simp only [List.drop]
        exact ih as bs h.2

/-- A `MARKER=\\S+` match at the start only inspects the first `m.length + 1` characters. -/
theorem startsMatch_eq_of_take (m : Str) (s s' : Str)
    (h : s.take (m.length + 1) = s'.take (m.length + 1)) :
    startsMatch m s = startsMatch m s' := by
  unfold startsMatch
  have h1 : s.take m.length = s'.take m.length := by
    have h2 := congrArg (List.take m.length) h
    rw [List.take_take, List.take_take] at h2
    simpa using h2
  rw [leadsWith_eq_of_take m s s' h1]
  have h2 := head_drop_eq_of_take m.length s s' h
  rcases hd : s.drop m.length with _ | ⟨c, cs⟩ <;>
    rcases hd' : s'.drop m.length with _ | ⟨c', cs'⟩
  · rfl
  · rw [hd, hd'] at h2
    simp at h2
  · rw [hd, hd'] at h2
    simp at h2
  · rw [hd, hd'] at h2
    simp only [List.head?, Option.some.injEq] at h2
    rw [h2]


/-- A string that leads with `m` decomposes as `m` followed by the rest. -/
theorem leadsWith_decomp (m : Str) : ∀ s : Str,
    leadsWith m s = true → s = m ++ s.drop m.length := by
  induction m with
  | nil => intro s _; rfl
  | cons c cs ih =>
    intro s h
    cases s with
    | nil => cases h
    | cons a as =>
      simp only [leadsWith, Bool.and_eq_true, decide_eq_true_eq] at h
      simp only [List.length_cons, List.drop, List.cons_append]
      rw [← h.1, ← ih as h.2]

/-- Everything kept by `takeWhile` satisfies the test. -/
theorem all_takeWhile {p : Char → Bool} : ∀ l : Str, (l.takeWhile p).all p = true := by
  intro l
  induction l with
  | nil => rfl
  | cons c cs ih =>
    simp only [List.takeWhile]
    cases hp : p c
    · rfl
    · simp [hp, ih]

/-- The head surviving `dropWhile` fails the test. -/
theorem dropWhile_head_fails {p : Char → Bool} : ∀ (l : Str) (c : Char),
    (l.dropWhile p).head? = some c → p c = false := by
  intro l
  induction l with
  | nil => intro c h; cases h
  | cons a as ih =>
    intro c h
    simp only [List.dropWhile] at h
    cases hp : p a
    · rw [hp] at h
      simp only [List.head?, Option.some.injEq] at h
      rw [← h]
      exact hp
    · rw [hp] at h
      exact ih c h

/-- Soundness of `findMatch`: a reported match decomposes the string, has a maximal non-empty non-whitespace value, and is the leftmost match. -/
theorem findMatch_sound (m : Str) : ∀ (s p v suf : Str),
    findMatch m s = some (p, v, suf) →
    s = p ++ m ++ v ++ suf
    ∧ v ≠ [] ∧ v.all nonSpace = true
    ∧ (∀ c, suf.head? = some c → nonSpace c = false)
    ∧ (∀ i, i < p.length → startsMatch m (s.drop i) = false) := by
  intro s
  induction s with
  | nil => intro p v suf h; cases h
  | cons c cs ih =>
    intro p v suf h
    unfold findMatch at h
    split at h
    · rename_i hsm
      simp only [Option.some.injEq, Prod.mk.injEq] at h
      obtain ⟨hp, hv, hsuf⟩ := h
      subst hp
      subst hv
      subst hsuf
      have hlw : leadsWith m (c :: cs) = true := by
        unfold startsMatch at hsm
        simp only [Bool.and_eq_true] at hsm
        exact hsm.1
      have hrest : (c :: cs) = m ++ (c :: cs).drop m.length := leadsWith_decomp m _ hlw
      have hne : ∀ d, ((c :: cs).drop m.length).head? = some d → nonSpace d = true := by
        intro d hd
        have hsm2 := hsm
        unfold startsMatch at hsm2
        simp only [Bool.and_eq_true] at hsm2
        have h2 := hsm2.2
        rcases hdr : (c :: cs).drop m.length with _ | ⟨e, es⟩
        · rw [hdr] at hd
          cases hd
        · rw [hdr] at hd h2
          simp only [List.head?, Option.some.injEq] at hd
          subst hd
          exact h2
      refine ⟨?_, ?_, all_takeWhile _, fun d hd => dropWhile_head_fails _ d hd, ?_⟩
      · conv_lhs => rw [hrest]
        rw [List.nil_append, List.append_assoc, List.takeWhile_append_dropWhile]
      · rcases hdr : (c :: cs).drop m.length with _ | ⟨e, es⟩
        · exfalso
          unfold startsMatch at hsm
          rw [hdr] at hsm
          simp at hsm
        · simp only [List.takeWhile]
          have he := hne e (by rw [hdr]; rfl)
          rw [he]
          simp
      · intro i hi
        simp at hi
    · rename_i hsm
      rcases hfm : findMatch m cs with _ | ⟨⟨q, w, sf⟩⟩
      · rw [hfm] at h
        cases h
      · rw [hfm] at h
        simp only [Option.some.injEq, Prod.mk.injEq] at h
        obtain ⟨hp, hv, hsuf⟩ := h
        subst hp
        subst hv
        subst hsuf
        obtain ⟨hdec, hv1, hv2, hsuf2, hno⟩ := ih _ _ _ hfm
        refine ⟨by rw [hdec]; simp [List.cons_append, List.append_assoc], hv1, hv2, hsuf2, ?_⟩
        intro i hi
        cases i with
        | zero =>
          simp only [List.drop]
          exact Bool.not_eq_true _ ▸ (by simpa using hsm)
        | succ j =>
          simp only [List.length_cons, Nat.succ_lt_succ_iff] at hi
          simp only [List.drop]
          exact hno j hi


/-- Unfolding `findMatch` when the marker matches at the head. -/
theorem findMatch_cons_pos {m : Str} {c : Char} {cs : Str}
    (h : startsMatch m (c :: cs) = true) :
    findMatch m (c :: cs) = some ([], ((c :: cs).drop m.length).takeWhile nonSpace,
      ((c :: cs).drop m.length).dropWhile nonSpace) := by
  rw [findMatch, if_pos h]

/-- Unfolding `findMatch` when the marker does not match at the head. -/
theorem findMatch_cons_neg {m : Str} {c : Char} {cs : Str}
    (h : startsMatch m (c :: cs) = false) :
    findMatch m (c :: cs)
      = match findMatch m cs with
        | none => none
        | some (p, v, suf) => some (c :: p, v, suf) := by
  rw [findMatch, if_neg]
  simp [h]

/-- Completeness of `findMatch`: a leftmost well-formed decomposition is found. -/
theorem findMatch_of (m : Str) (hm : m ≠ []) : ∀ (p v suf : Str),
    v ≠ [] → v.all nonSpace = true →
    (∀ c, suf.head? = some c → nonSpace c = false) →
    (∀ i, i < p.length → startsMatch m ((p ++ m ++ v ++ suf).drop i) = false) →
    findMatch m (p ++ m ++ v ++ suf) = some (p, v, suf) := by
  intro p
  induction p with
  | nil =>
    intro v suf hv1 hv2 hsuf _
    simp only [List.nil_append]
    have hsm : startsMatch m (m ++ v ++ suf) = true := by
      unfold startsMatch
      have hlw : leadsWith m (m ++ v ++ suf) = true := by
        rw [List.append_assoc]
        exact leadsWith_append_self m (v ++ suf)
      rw [hlw]
      have hdrop : (m ++ v ++ suf).drop m.length = v ++ suf := by
        rw [List.append_assoc]
        exact List.drop_left m (v ++ suf)
      rw [hdrop]
      rcases hv : v with _ | ⟨c0, v'⟩
      · exact absurd hv hv1
      · simp only [List.cons_append]
        rw [hv] at hv2
        simp only [List.all_cons, Bool.and_eq_true] at hv2
        simp [hv2.1]
    obtain ⟨d, m', hmc⟩ := List.exists_cons_of_ne_nil hm
    have hshape : m ++ v ++ suf = d :: (m' ++ v ++ suf) := by
      rw [hmc]
      simp [List.cons_append]
    rw [hshape] at hsm ⊢
    rw [findMatch_cons_pos hsm]
    have hdrop : (d :: (m' ++ v ++ suf)).drop m.length = v ++ suf := by
      rw [← hshape, List.append_assoc]
      exact List.drop_left m (v ++ suf)
    rw [hdrop]
    rw [takeWhile_append_all v suf hv2 hsuf, dropWhile_append_all v suf hv2 hsuf]
  | cons c p' ih =>
    intro v suf hv1 hv2 hsuf hno
    have hs : (c :: p') ++ m ++ v ++ suf = c :: (p' ++ m ++ v ++ suf) := by
      simp [List.cons_append]
    rw [hs]
    have h0 : startsMatch m (c :: (p' ++ m ++ v ++ suf)) = false := by
      have := hno 0 (by simp)
      rw [hs] at this
      simpa using this
    rw [findMatch_cons_neg h0]
    have hno' : ∀ i, i < p'.length → startsMatch m ((p' ++ m ++ v ++ suf).drop i) = false := by
      intro i hi
      have := hno (i + 1) (by simp; omega)
      rw [hs] at this
      simpa [List.drop] using this
    rw [ih v suf hv1 hv2 hsuf hno']


/-- Digit characters of base-10 digits are decimal digits. -/
theorem digitChar_isDigit (k : Nat) (h : k < 10) : (Nat.digitChar k).isDigit = true := by
  interval_cases k <;> decide

/-- Every character produced by the base-10 digit printer is a decimal digit. -/
theorem toDigitsCore_all (fuel n : Nat) : ∀ ds : List Char,
    (∀ c ∈ ds, c.isDigit = true) →
    ∀ c ∈ Nat.toDigitsCore 10 fuel n ds, c.isDigit = true := by
  induction fuel generalizing n with
  | zero => intro ds hds; exact hds
  | succ f ih =>
    intro ds hds c hc
    simp only [Nat.toDigitsCore] at hc
    have hdig : (Nat.digitChar (n % 10)).isDigit = true :=
      digitChar_isDigit _ (Nat.mod_lt _ (by norm_num))
    split at hc
    · rcases List.mem_cons.mp hc with rfl | hmem
      · exact hdig
      · exact hds c hmem
    · refine ih _ _ ?_ c hc
      intro d hd
      rcases List.mem_cons.mp hd with rfl | hmem
      · exact hdig
      · exact hds d hmem

/-- The digit printer never returns an empty string. -/
theorem toDigitsCore_ne_nil (fuel n : Nat) : ∀ ds : List Char,
    fuel ≠ 0 ∨ ds ≠ [] → Nat.toDigitsCore 10 fuel n ds ≠ [] := by
  induction fuel generalizing n with
  | zero =>
    intro ds h
    rcases h with h | h
    · exact absurd rfl h
    · exact h
  | succ f ih =>
    intro ds _
    simp only [Nat.toDigitsCore]
    split
    · simp
    · exact ih _ _ (Or.inr (by simp))

/-- A printed integer consists of digits and possibly a minus sign. -/
theorem intToStr_all_digits_or_dash (b : Int) :
    ∀ c ∈ intToStr b, c.isDigit = true ∨ c = '-' := by
  intro c hc
  unfold intToStr at hc
  split at hc
  · rcases List.mem_cons.mp hc with rfl | hmem
    · exact Or.inr rfl
    · exact Or.inl (toDigitsCore_all _ _ [] (by simp) c hmem)
  · exact Or.inl (toDigitsCore_all _ _ [] (by simp) c hc)

/-- A printed integer is non-empty. -/
theorem intToStr_ne_nil (b : Int) : intToStr b ≠ [] := by
  unfold intToStr
  split
  · simp
  · exact toDigitsCore_ne_nil _ _ [] (Or.inl (by omega))

/-- A printed integer contains no whitespace. -/
theorem intToStr_nonSpace (b : Int) : (intToStr b).all nonSpace = true := by
  rw [List.all_eq_true]
  intro c hc
  rcases intToStr_all_digits_or_dash b c hc with h | rfl
  · unfold nonSpace
    rw [not_whitespace_of_digit c h]
    rfl
  · decide

/-- A printed integer contains no dollar sign. -/
theorem intToStr_no_dollar (b : Int) : '$' ∉ intToStr b := by
  intro hc
  rcases intToStr_all_digits_or_dash b _ hc with h | h
  · exact absurd h (by decide)
  · cases h


/-- `replaceFirst` at a known match splices in the substituted template. -/
theorem replaceFirst_eq (m tpl s p v suf : Str)
    (hf : findMatch m s = some (p, v, suf)) (hd : '$' ∉ tpl) :
    replaceFirst m tpl s = p ++ tpl ++ suf := by
  unfold replaceFirst
  rw [hf]
  dsimp only
  rw [dollarSub_no_dollar _ _ _ tpl hd]


/-- Windows inside a shared prefix agree. -/
theorem take_drop_eq_of_take_eq {s s' : Str} {N i k : Nat}
    (h : s.take N = s'.take N) (hik : i + k ≤ N) :
    (s.drop i).take k = (s'.drop i).take k := by
  rw [List.take_drop, List.take_drop]
  have h1 : s.take (i + k) = (s.take N).take (i + k) := by
    rw [List.take_take]
    congr 1
    omega
  have h2 : s'.take (i + k) = (s'.take N).take (i + k) := by
    rw [List.take_take]
    congr 1
    omega
  rw [h1, h2, h]

/-- Match tests at positions whose window lies inside a shared prefix agree. -/
theorem startsMatch_drop_of_shared (m s s' : Str) (N i : Nat)
    (hshare : s.take N = s'.take N) (hi : i + m.length + 1 ≤ N) :
    startsMatch m (s.drop i) = startsMatch m (s'.drop i) :=
  startsMatch_eq_of_take _ _ _ (take_drop_eq_of_take_eq hshare hi)


/-- C9 as amended: for a script in the documented format -- a first `VERSION=` assignment followed (after whitespace) by the first `BUILD_NUMBER=` assignment, located where the regexes first match -- and a non-empty, whitespace-free, dollar-free version name, `replaceVersionInScript` replaces exactly the first occurrence of each assignment leaving all other content unchanged, and applying it twice with the same values yields the same text as applying it once. -/
theorem replaceVersionInScript_idem_amended
    (A x M y C v : Str) (b : Int)
    (hv1 : v ≠ []) (hv2 : v.all nonSpace = true) (hv3 : '$' ∉ v)
    (hV : findMatch ("VERSION=" : String).data
        (A ++ ("VERSION=" : String).data ++ x
          ++ (M ++ ("BUILD_NUMBER=" : String).data ++ y ++ C))
        = some (A, x, M ++ ("BUILD_NUMBER=" : String).data ++ y ++ C))
    (hB : findMatch ("BUILD_NUMBER=" : String).data
        (A ++ ("VERSION=" : String).data ++ v
          ++ (M ++ ("BUILD_NUMBER=" : String).data ++ y ++ C))
        = some (A ++ ("VERSION=" : String).data ++ v ++ M, y, C)) :
    replaceVersionInScript
        (A ++ ("VERSION=" : String).data ++ x
          ++ (M ++ ("BUILD_NUMBER=" : String).data ++ y ++ C)) v b
      = A ++ ("VERSION=" : String).data ++ v ++ M
          ++ ("BUILD_NUMBER=" : String).data ++ intToStr b ++ C
    ∧ replaceVersionInScript
        (replaceVersionInScript
          (A ++ ("VERSION=" : String).data ++ x
            ++ (M ++ ("BUILD_NUMBER=" : String).data ++ y ++ C)) v b) v b
      = replaceVersionInScript
          (A ++ ("VERSION=" : String).data ++ x
            ++ (M ++ ("BUILD_NUMBER=" : String).data ++ y ++ C)) v b := by
  have hVmne : ("VERSION=" : String).data ≠ [] := by decide
  have hBmne : ("BUILD_NUMBER=" : String).data ≠ [] := by decide
  have hlenVm : ("VERSION=" : String).data.length = 8 := by decide
  have hlenBm : ("BUILD_NUMBER=" : String).data.length = 13 := by decide
  have hVdollar : '$' ∉ ("VERSION=" : String).data ++ v := by
    rw [List.mem_append]
    rintro (h | h)
    · exact absurd h (by decide)
    · exact hv3 h
  have hBdollar : '$' ∉ ("BUILD_NUMBER=" : String).data ++ intToStr b := by
    rw [List.mem_append]
    rintro (h | h)
    · exact absurd h (by decide)
    · exact intToStr_no_dollar b h
  obtain ⟨-, -, -, hVsuf, hVno⟩ := findMatch_sound _ _ _ _ _ hV
  obtain ⟨-, -, -, hBsuf, hBno⟩ := findMatch_sound _ _ _ _ _ hB
  obtain ⟨mc, M', hMc, hMcw⟩ :
      ∃ mc M', M = mc :: M' ∧ nonSpace mc = false := by
    rcases M with _ | ⟨mc, M'⟩
    · exfalso
      have hBhead : ("BUILD_NUMBER=" : String).data
          = 'B' :: ("UILD_NUMBER=" : String).data := by decide
      have := hVsuf 'B' (by rw [List.nil_append, hBhead]; simp [List.cons_append])
      exact absurd this (by decide)
    · refine ⟨mc, M', rfl, ?_⟩
      apply hVsuf mc
      simp [List.cons_append]
  have hstep1 : replaceFirst ("VERSION=" : String).data (("VERSION=" : String).data ++ v)
      (A ++ ("VERSION=" : String).data ++ x
        ++ (M ++ ("BUILD_NUMBER=" : String).data ++ y ++ C))
      = A ++ ("VERSION=" : String).data ++ v
        ++ (M ++ ("BUILD_NUMBER=" : String).data ++ y ++ C) := by
    rw [replaceFirst_eq _ _ _ _ _ _ hV hVdollar]
    simp [List.append_assoc]
  have hstep2 : replaceFirst ("BUILD_NUMBER=" : String).data
      (("BUILD_NUMBER=" : String).data ++ intToStr b)
      (A ++ ("VERSION=" : String).data ++ v
        ++ (M ++ ("BUILD_NUMBER=" : String).data ++ y ++ C))
      = A ++ ("VERSION=" : String).data ++ v ++ M
        ++ ("BUILD_NUMBER=" : String).data ++ intToStr b ++ C := by
    rw [replaceFirst_eq _ _ _ _ _ _ hB hBdollar]
    simp [List.append_assoc]
  have hfirst : replaceVersionInScript
      (A ++ ("VERSION=" : String).data ++ x
        ++ (M ++ ("BUILD_NUMBER=" : String).data ++ y ++ C)) v b
      = A ++ ("VERSION=" : String).data ++ v ++ M
        ++ ("BUILD_NUMBER=" : String).data ++ intToStr b ++ C := by
    unfold replaceVersionInScript
    rw [hstep1, hstep2]
  have hrestfail : ∀ c,
      (M ++ ("BUILD_NUMBER=" : String).data ++ intToStr b ++ C).head? = some c →
      nonSpace c = false := by
    intro c hc
    rw [hMc] at hc
    simp only [List.cons_append, List.head?_cons, Option.some.injEq] at hc
    rw [← hc]
    exact hMcw
  have hVfindU : findMatch ("VERSION=" : String).data
      (A ++ ("VERSION=" : String).data ++ v
        ++ (M ++ ("BUILD_NUMBER=" : String).data ++ intToStr b ++ C))
      = some (A, v, M ++ ("BUILD_NUMBER=" : String).data ++ intToStr b ++ C) := by
    apply findMatch_of _ hVmne _ _ _ hv1 hv2 hrestfail
    intro i hi
    have hshare : (A ++ ("VERSION=" : String).data ++ v
          ++ (M ++ ("BUILD_NUMBER=" : String).data ++ intToStr b ++ C)).take
            (A ++ ("VERSION=" : String).data).length
        = (A ++ ("VERSION=" : String).data ++ x
          ++ (M ++ ("BUILD_NUMBER=" : String).data ++ y ++ C)).take
            (A ++ ("VERSION=" : String).data).length := by
      have e1 : A ++ ("VERSION=" : String).data ++ v
          ++ (M ++ ("BUILD_NUMBER=" : String).data ++ intToStr b ++ C)
          = (A ++ ("VERSION=" : String).data)
            ++ (v ++ (M ++ ("BUILD_NUMBER=" : String).data ++ intToStr b ++ C)) := by
        simp [List.append_assoc]
      have e2 : A ++ ("VERSION=" : String).data ++ x
          ++ (M ++ ("BUILD_NUMBER=" : String).data ++ y ++ C)
          = (A ++ ("VERSION=" : String).data)
            ++ (x ++ (M ++ ("BUILD_NUMBER=" : String).data ++ y ++ C)) := by
        simp [List.append_assoc]
      rw [e1, e2, List.take_left, List.take_left]
    have heq := startsMatch_drop_of_shared ("VERSION=" : String).data _ _
      (A ++ ("VERSION=" : String).data).length i hshare
      (by rw [List.length_append, hlenVm]; omega)
    rw [heq]
    exact hVno i hi
  have hBfindU : findMatch ("BUILD_NUMBER=" : String).data
      (A ++ ("VERSION=" : String).data ++ v ++ M
        ++ ("BUILD_NUMBER=" : String).data ++ intToStr b ++ C)
      = some (A ++ ("VERSION=" : String).data ++ v ++ M, intToStr b, C) := by
    apply findMatch_of _ hBmne _ _ _ (intToStr_ne_nil b) (intToStr_nonSpace b) hBsuf
    intro i hi
    have hshare : (A ++ ("VERSION=" : String).data ++ v ++ M
          ++ ("BUILD_NUMBER=" : String).data ++ intToStr b ++ C).take
            (A ++ ("VERSION=" : String).data ++ v ++ M
              ++ ("BUILD_NUMBER=" : String).data).length
        = (A ++ ("VERSION=" : String).data ++ v
          ++ (M ++ ("BUILD_NUMBER=" : String).data ++ y ++ C)).take
            (A ++ ("VERSION=" : String).data ++ v ++ M
              ++ ("BUILD_NUMBER=" : String).data).length := by
      have e1 : A ++ ("VERSION=" : String).data ++ v ++ M
          ++ ("BUILD_NUMBER=" : String).data ++ intToStr b ++ C
          = (A ++ ("VERSION=" : String).data ++ v ++ M
            ++ ("BUILD_NUMBER=" : String).data) ++ (intToStr b ++ C) := by
        simp [List.append_assoc]
      have e2 : A ++ ("VERSION=" : String).data ++ v
          ++ (M ++ ("BUILD_NUMBER=" : String).data ++ y ++ C)
          = (A ++ ("VERSION=" : String).data ++ v ++ M
            ++ ("BUILD_NUMBER=" : String).data) ++ (y ++ C) := by
        simp [List.append_assoc]
      rw [e1, e2, List.take_left, List.take_left]
    have heq := startsMatch_drop_of_shared ("BUILD_NUMBER=" : String).data _ _
      (A ++ ("VERSION=" : String).data ++ v ++ M
        ++ ("BUILD_NUMBER=" : String).data).length i hshare
      (by
        rw [List.length_append, hlenBm]
        have : i < (A ++ ("VERSION=" : String).data ++ v ++ M).length := hi
        omega)
    rw [heq]
    exact hBno i hi
  have hsecond : replaceVersionInScript
      (A ++ ("VERSION=" : String).data ++ v ++ M
        ++ ("BUILD_NUMBER=" : String).data ++ intToStr b ++ C) v b
      = A ++ ("VERSION=" : String).data ++ v ++ M
        ++ ("BUILD_NUMBER=" : String).data ++ intToStr b ++ C := by
    unfold replaceVersionInScript
    have hu : A ++ ("VERSION=" : String).data ++ v ++ M
        ++ ("BUILD_NUMBER=" : String).data ++ intToStr b ++ C
        = A ++ ("VERSION=" : String).data ++ v
          ++ (M ++ ("BUILD_NUMBER=" : String).data ++ intToStr b ++ C) := by
      simp [List.append_assoc]
    rw [hu, replaceFirst_eq _ _ _ _ _ _ hVfindU hVdollar]
    have hback : A ++ (("VERSION=" : String).data ++ v)
        ++ (M ++ ("BUILD_NUMBER=" : String).data ++ intToStr b ++ C)
        = A ++ ("VERSION=" : String).data ++ v ++ M
          ++ ("BUILD_NUMBER=" : String).data ++ intToStr b ++ C := by
      simp [List.append_assoc]
    rw [hback, replaceFirst_eq _ _ _ _ _ _ hBfindU hBdollar]
    simp [List.append_assoc]
  refine ⟨hfirst, ?_⟩
  rw [hfirst, hsecond]


/-- C9 counterexample: `replaceVersionInScript` is *not* idempotent for every script text, even with clean values.  On the script `"BUILD_NUMBER=VERSION=a VERSION=b"` with version name `"v"` and build number `9`, one application yields `"BUILD_NUMBER=9 VERSION=b"` (the `BUILD_NUMBER=` replacement swallows the rewritten `VERSION=` assignment), and a second application rewrites the later `VERSION=b`, changing the text. -/
theorem replaceVersion_idem_cex :
    replaceVersionInScript
        (replaceVersionInScript ("BUILD_NUMBER=VERSION=a VERSION=b" : String).data
          ("v" : String).data 9)
        ("v" : String).data 9
      ≠ replaceVersionInScript ("BUILD_NUMBER=VERSION=a VERSION=b" : String).data
          ("v" : String).data 9 := by
  decide

/-- Witness for the amended C9 on a canonical script. -/
theorem replaceVersionInScript_idem_amended_witness :
    replaceVersionInScript
        ([] ++ ("VERSION=" : String).data ++ ("1.0.0" : String).data
          ++ ((" " : String).data ++ ("BUILD_NUMBER=" : String).data
            ++ ("1" : String).data ++ (" APPS" : String).data))
        ("9.9.9" : String).data 100
      = [] ++ ("VERSION=" : String).data ++ ("9.9.9" : String).data
          ++ (" " : String).data ++ ("BUILD_NUMBER=" : String).data
          ++ intToStr 100 ++ (" APPS" : String).data
    ∧ replaceVersionInScript
        (replaceVersionInScript
          ([] ++ ("VERSION=" : String).data ++ ("1.0.0" : String).data
            ++ ((" " : String).data ++ ("BUILD_NUMBER=" : String).data
              ++ ("1" : String).data ++ (" APPS" : String).data))
          ("9.9.9" : String).data 100)
        ("9.9.9" : String).data 100
      = replaceVersionInScript
          ([] ++ ("VERSION=" : String).data ++ ("1.0.0" : String).data
            ++ ((" " : String).data ++ ("BUILD_NUMBER=" : String).data
              ++ ("1" : String).data ++ (" APPS" : String).data))
          ("9.9.9" : String).data 100 :=
  replaceVersionInScript_idem_amended [] ("1.0.0" : String).data (" " : String).data
    ("1" : String).data (" APPS" : String).data ("9.9.9" : String).data 100
    (by decide) (by decide) (by decide) (by decide) (by decide)

end AutoBuildFlow
